import Mathlib

/-!
Verification development for the toy EdgeQL evaluator model
(`edb/tools/toy_eval_model.py`).

The Python source is shallowly embedded: Python values (`Data = Any` in the
source) become the inductive type `Data`; multisets are `List Data`; fallible
Python code (exceptions) returns `Except Err`; the recursive evaluator is
indexed by fuel.  The embedding covers the evaluator core: path analysis,
query-input-list construction, input-tuple building, the lifting rules for
operators, SELECT clause evaluation, and the toy database `DB1`.

Modelled fragment boundaries, stated once here:
* expression-rooted path steps (`IExpr`, and the `qlast.Expr` path-step case
  of `simplify_path`) are outside the fragment — paths begin at an object
  reference or the implicit partial prefix, as all paths of the claims do;
* Python floats appear only as the result of `random()`, modelled as an
  ambient rational `rand` consulted by the `random` builtin; no float
  arithmetic is modelled;
* value comparison (`dataLt`) is total: comparisons between values of
  different types, which raise `TypeError` in Python, are modelled as
  `false` and are not relied on by any theorem;
* value equality is structural (object references compare by id, as in the
  source's `Obj.__eq__`).
-/

namespace ToyEval

/-- Error kinds corresponding to the Python exceptions the source can raise:
`AssertionError` (the `assert` statements in `eval_offset`, `eval_limit`,
`eval_orderby`), `KeyError` (missing dict key / unknown builtin),
`IndexError` (sequence index out of range), `ValueError` (`min`/`max` of an
empty sequence, failed `int()` parse), `TypeError` (operation on unsupported
operand types), and fuel exhaustion of the embedding. -/
inductive Err where
  | assertionError
  | keyError
  | indexError
  | valueError
  | typeError
  | outOfFuel
  deriving DecidableEq, Repr

/-- Python runtime values flowing through the evaluator (`Data = Any` in the
source): `None`, booleans, ints, floats, strings, uuids (object ids), object
references (`Obj`, compared by id), tuples, lists, and dicts. -/
inductive Data where
  | DNone
  | DBool (b : Bool)
  | DInt (n : Int)
  | DFloat (q : ℚ)
  | DStr (s : String)
  | DId (n : Nat)
  | DObj (n : Nat)
  | DTuple (l : List Data)
  | DList (l : List Data)
  | DDict (l : List (String × Data))

mutual

/-- Structural Boolean equality on `Data` (Python `==`; `Obj.__eq__` compares
ids). -/
def beqD : Data → Data → Bool
  | .DNone, .DNone => true
  | .DBool a, .DBool b => a == b
  | .DInt a, .DInt b => a == b
  | .DFloat a, .DFloat b => a == b
  | .DStr a, .DStr b => a == b
  | .DId a, .DId b => a == b
  | .DObj a, .DObj b => a == b
  | .DTuple a, .DTuple b => beqLD a b
  | .DList a, .DList b => beqLD a b
  | .DDict a, .DDict b => beqLSD a b
  | _, _ => false

/-- Elementwise equality of value lists. -/
def beqLD : List Data → List Data → Bool
  | [], [] => true
  | a :: as, b :: bs => beqD a b && beqLD as bs
  | _, _ => false

/-- Elementwise equality of string-keyed field lists. -/
def beqLSD : List (String × Data) → List (String × Data) → Bool
  | [], [] => true
  | (s, a) :: as, (t, b) :: bs => s == t && beqD a b && beqLSD as bs
  | _, _ => false

end

mutual

theorem beqD_iff : ∀ a b, beqD a b = true ↔ a = b
  | .DNone, b => by cases b <;> simp [beqD]
  | .DBool _, b => by cases b <;> simp [beqD]
  | .DInt _, b => by cases b <;> simp [beqD]
  | .DFloat _, b => by cases b <;> simp [beqD]
  | .DStr _, b => by cases b <;> simp [beqD]
  | .DId _, b => by cases b <;> simp [beqD]
  | .DObj _, b => by cases b <;> simp [beqD]
  | .DTuple l, .DTuple m => by simp [beqD, beqLD_iff l m]
  | .DTuple _, .DNone => by simp [beqD]
  | .DTuple _, .DBool _ => by simp [beqD]
  | .DTuple _, .DInt _ => by simp [beqD]
  | .DTuple _, .DFloat _ => by simp [beqD]
  | .DTuple _, .DStr _ => by simp [beqD]
  | .DTuple _, .DId _ => by simp [beqD]
  | .DTuple _, .DObj _ => by simp [beqD]
  | .DTuple _, .DList _ => by simp [beqD]
  | .DTuple _, .DDict _ => by simp [beqD]
  | .DList l, .DList m => by simp [beqD, beqLD_iff l m]
  | .DList _, .DNone => by simp [beqD]
  | .DList _, .DBool _ => by simp [beqD]
  | .DList _, .DInt _ => by simp [beqD]
  | .DList _, .DFloat _ => by simp [beqD]
  | .DList _, .DStr _ => by simp [beqD]
  | .DList _, .DId _ => by simp [beqD]
  | .DList _, .DObj _ => by simp [beqD]
  | .DList _, .DTuple _ => by simp [beqD]
  | .DList _, .DDict _ => by simp [beqD]
  | .DDict l, .DDict m => by simp [beqD, beqLSD_iff l m]
  | .DDict _, .DNone => by simp [beqD]
  | .DDict _, .DBool _ => by simp [beqD]
  | .DDict _, .DInt _ => by simp [beqD]
  | .DDict _, .DFloat _ => by simp [beqD]
  | .DDict _, .DStr _ => by simp [beqD]
  | .DDict _, .DId _ => by simp [beqD]
  | .DDict _, .DObj _ => by simp [beqD]
  | .DDict _, .DTuple _ => by simp [beqD]
  | .DDict _, .DList _ => by simp [beqD]

theorem beqLD_iff : ∀ a b, beqLD a b = true ↔ a = b
  | [], [] => by simp [beqLD]
  | [], _ :: _ => by simp [beqLD]
  | _ :: _, [] => by simp [beqLD]
  | a :: as, b :: bs => by
    simp [beqLD, beqD_iff a b, beqLD_iff as bs]

theorem beqLSD_iff : ∀ a b, beqLSD a b = true ↔ a = b
  | [], [] => by simp [beqLSD]
  | [], _ :: _ => by simp [beqLSD]
  | _ :: _, [] => by simp [beqLSD]
  | (s, a) :: as, (t, b) :: bs => by
    simp [beqLSD, beqD_iff a b, beqLSD_iff as bs, Prod.ext_iff, and_assoc]

end

instance : DecidableEq Data := fun a b =>
  decidable_of_iff (beqD a b = true) (beqD_iff a b)

instance : DecidableEq (Except Err (List Data)) := fun a b =>
  match a, b with
  | .ok x, .ok y => decidable_of_iff (x = y) (by simp)
  | .error x, .error y => decidable_of_iff (x = y) (by simp)
  | .ok _, .error _ => isFalse (by simp)
  | .error _, .ok _ => isFalse (by simp)

/-- Python truthiness (`bool(x)`): `None` and empty/zero values are falsy. -/
def pyTruthy : Data → Bool
  | .DNone => false
  | .DBool b => b
  | .DInt n => n ≠ 0
  | .DFloat q => q ≠ 0
  | .DStr s => s ≠ ""
  | .DId _ => true
  | .DObj _ => true
  | .DTuple l => l ≠ []
  | .DList l => l ≠ []
  | .DDict l => l ≠ []

/-- Character comparison by code point. -/
def charLt (a b : Char) : Bool := a.val.toNat < b.val.toNat

/-- Lexicographic string comparison over code points (Python `<` on `str`). -/
def strLtL : List Char → List Char → Bool
  | [], [] => false
  | [], _ :: _ => true
  | _ :: _, [] => false
  | a :: as, b :: bs =>
    if charLt a b then true
    else if charLt b a then false
    else strLtL as bs

def strLt (s t : String) : Bool := strLtL s.data t.data

/-- Three-way comparison of code-point lists. -/
def strCmpL : List Char → List Char → Ordering
  | [], [] => .eq
  | [], _ :: _ => .lt
  | _ :: _, [] => .gt
  | a :: as, b :: bs =>
    if charLt a b then .lt
    else if charLt b a then .gt
    else strCmpL as bs

def strCmp (s t : String) : Ordering := strCmpL s.data t.data

mutual

/-- Three-way comparison behind the total model of Python `<` on values:
ints, floats, booleans, strings, uuids by value, tuples and lists
lexicographically.  Comparisons that raise `TypeError` in Python (mixed
types, object references, dicts) answer `.gt` in both directions, making the
derived `<` false both ways; no theorem relies on that corner. -/
def dataCmp : Data → Data → Ordering
  | .DNone, .DNone => .eq
  | .DInt a, .DInt b => if a < b then .lt else if b < a then .gt else .eq
  | .DFloat a, .DFloat b => if a < b then .lt else if b < a then .gt else .eq
  | .DBool a, .DBool b => if a = b then .eq else if !a && b then .lt else .gt
  | .DStr a, .DStr b => strCmp a b
  | .DId a, .DId b => if a < b then .lt else if b < a then .gt else .eq
  | .DTuple a, .DTuple b => dataListCmp a b
  | .DList a, .DList b => dataListCmp a b
  | _, _ => .gt

/-- Lexicographic three-way comparison of value sequences. -/
def dataListCmp : List Data → List Data → Ordering
  | [], [] => .eq
  | [], _ :: _ => .lt
  | _ :: _, [] => .gt
  | a :: as, b :: bs =>
    match dataCmp a b with
    | .eq => dataListCmp as bs
    | o => o

end

/-- Python `<` on values (total model, see `dataCmp`). -/
def dataLt (a b : Data) : Bool := dataCmp a b == .lt

theorem strCmpL_refl : ∀ l, strCmpL l l = .eq
  | [] => rfl
  | a :: as => by simp [strCmpL, charLt, strCmpL_refl as]

mutual

theorem dataCmp_refl : ∀ a, dataCmp a a ≠ .lt
  | .DNone => by simp [dataCmp]
  | .DBool b => by simp [dataCmp]
  | .DInt _ => by simp [dataCmp]
  | .DFloat _ => by simp [dataCmp]
  | .DStr s => by simp [dataCmp, strCmp, strCmpL_refl]
  | .DId _ => by simp [dataCmp]
  | .DObj _ => by simp [dataCmp]
  | .DTuple l => by simpa [dataCmp] using dataListCmp_refl l
  | .DList l => by simpa [dataCmp] using dataListCmp_refl l
  | .DDict _ => by simp [dataCmp]

theorem dataListCmp_refl : ∀ l, dataListCmp l l ≠ .lt
  | [] => by simp [dataListCmp]
  | a :: as => by
    simp only [dataListCmp]
    cases h : dataCmp a a with
    | eq => exact dataListCmp_refl as
    | lt => exact absurd h (dataCmp_refl a)
    | gt => simp

end

theorem dataLt_irrefl (a : Data) : dataLt a a = false := by
  have h := dataCmp_refl a
  unfold dataLt
  cases hc : dataCmp a a with
  | lt => exact absurd hc h
  | eq => rfl
  | gt => rfl

-- ############# Data model

/-- An object record: the Python dict mapping attribute names (among them
`id` and `__type__`) to stored values. -/
abbrev Rec := List (String × Data)

/-- The database: mapping from object id to record, in insertion order
(Python dicts preserve insertion order). -/
abbrev DB := List (Nat × Rec)

/-- Python `dict.get(key, default=None)`-style lookup on a record. -/
def recGet (r : Rec) (k : String) : Option Data :=
  (List.find? (fun p => p.1 == k) r).map (·.2)

/-- Python `rec[key]` on a record: `KeyError` when absent. -/
def recGetE (r : Rec) (k : String) : Except Err Data :=
  match recGet r k with
  | some v => .ok v
  | none => .error .keyError

/-- `db[id]`: `KeyError` when the object id is absent. -/
def dbGet (db : DB) (i : Nat) : Except Err Rec :=
  match List.find? (fun p => p.1 == i) db with
  | some p => .ok p.2
  | none => .error .keyError

/-- `get_links`: read attribute `key`, normalising a stored scalar to a
one-element list, a stored list to itself, and an absent attribute to `[]`. -/
def get_links (r : Rec) (key : String) : List Data :=
  match recGet r key with
  | none => []
  | some (.DList l) => l
  | some v => [v]

-- ############# Internal paths

/-- Path elements (`IPartial`, `IORef`, `ITypeIntersection`, `IPtr` in the
source; expression-rooted steps are outside the modelled fragment). -/
inductive IPathElement where
  | IPartial
  | IORef (name : String)
  | ITypeIntersection (typ : String)
  | IPtr (ptr : String) (direction : Option String)
  deriving DecidableEq, Repr

/-- A path: sequence of path elements (`IPath = Tuple[IPathElement, ...]`). -/
abbrev IPath := List IPathElement

/-- `longest_common_prefix`: the maximal initial elementwise-equal segment of
two paths. -/
def lcp : IPath → IPath → IPath
  | [], _ => []
  | _, [] => []
  | a :: as, b :: bs => if a = b then a :: lcp as bs else []

/-- `dedup` loop body: walk the input, appending each element not already
seen (membership via `==`, i.e. Python `in`). -/
def dedupGo : List Data → List Data → List Data
  | [], acc => acc
  | x :: xs, acc => if x ∈ acc then dedupGo xs acc else dedupGo xs (acc ++ [x])

/-- In-order deduplication keeping the first occurrence of each value
(`dedup` in the source). -/
def dedup (old : List Data) : List Data := dedupGo old []

/-- Set-style insertion used to model Python `set.add` (the resulting list
is later sorted, so insertion position is irrelevant). -/
def sinsert (x : IPath) (s : List IPath) : List IPath :=
  if x ∈ s then s else s ++ [x]

/-- `find_common_prefixes` loop: for the direct ref `x` and peers `ys`
(the direct refs from `x` on, then every subquery ref), add every nonempty
longest common prefix; when none is nonempty, add `x` itself. -/
def fcpGo (subquery_refs : List IPath) : List IPath → List IPath → List IPath
  | [], acc => acc
  | x :: rest, acc =>
    let ys := (x :: rest) ++ subquery_refs
    let pfxs := (ys.map (fun y => lcp x y)).filter (fun p => p ≠ [])
    let acc' := if pfxs = [] then sinsert x acc
                else pfxs.foldl (fun a p => sinsert p a) acc
    fcpGo subquery_refs rest acc'

/-- `find_common_prefixes(direct_refs, subquery_refs)`. -/
def find_common_prefixes (direct_refs subquery_refs : List IPath) :
    List IPath :=
  fcpGo subquery_refs direct_refs []

/-- Injective encoding of a path element used for the total order behind
`sorted` (the source sorts paths as tuples; the order among elements of
different constructors is a model choice no theorem relies on). -/
def elemKey : IPathElement → Nat × String × String
  | .IPartial => (0, "", "")
  | .IORef n => (1, n, "")
  | .ITypeIntersection t => (2, t, "")
  | .IPtr n d => (3, n, match d with | none => "" | some s => "." ++ s)

/-- Strict total order on path elements via the encoding. -/
def elemLt (a b : IPathElement) : Bool :=
  let ka := elemKey a
  let kb := elemKey b
  decide (ka.1 < kb.1) ||
    (ka.1 == kb.1 &&
      (strLt ka.2.1 kb.2.1 ||
        (ka.2.1 == kb.2.1 && strLt ka.2.2 kb.2.2)))

/-- Lexicographic strict order on paths. -/
def pathLt : IPath → IPath → Bool
  | [], [] => false
  | [], _ :: _ => true
  | _ :: _, [] => false
  | a :: as, b :: bs =>
    if elemLt a b then true
    else if elemLt b a then false
    else pathLt as bs

/-- Non-strict path order used by the model of `sorted`. -/
def pathLe (a b : IPath) : Bool := !(pathLt b a)

/-- `make_query_input_list(direct_refs, subquery_refs, old)`: restrict the
direct refs to those whose first element is an object ref, take the common
prefixes, drop paths already in `old`, and return the rest sorted. -/
def make_query_input_list (direct_refs subquery_refs old : List IPath) :
    List IPath :=
  let direct_refs' :=
    direct_refs.filter (fun x =>
      match x.head? with | some (.IORef _) => true | _ => false)
  let qil := find_common_prefixes direct_refs' subquery_refs
  List.insertionSort (fun a b => pathLe a b = true)
    (qil.filter (fun x => x ∉ old))

-- ############# Surface AST (the `qlast` fragment the evaluator handles)

/-- Surface path steps (`qlast.ObjectRef`, `qlast.Ptr`,
`qlast.TypeIntersection`); expression-rooted steps are outside the modelled
fragment. -/
inductive PathStep where
  | ObjectRef (name : String)
  | Ptr (name : String) (direction : Option String)
  | TypeIntersection (typ : String)
  deriving DecidableEq, Repr

/-- A surface path (`qlast.Path`): the implicit-partial flag and the steps. -/
inductive SPath where
  | mk (partialDot : Bool) (steps : List PathStep)
  deriving DecidableEq, Repr

mutual

/-- The expression AST fragment the evaluator dispatches on
(`qlast.SelectQuery`, `qlast.ForQuery`, `qlast.BinOp`, `qlast.UnaryOp`,
`qlast.FunctionCall`, `qlast.IfElse`, constants, `qlast.Set`, `qlast.Tuple`,
`qlast.TypeCast`, `qlast.Path`).  `SelectQuery.aliases` are the
`AliasedExpr` pairs. -/
inductive Expr where
  | SelectQuery (aliases : List (String × Expr)) (result : Expr)
      (result_alias : Option String) (where_ : Option Expr)
      (orderby : List SortSpec) (offset : Option Expr) (limit : Option Expr)
  | ForQuery (iterator_alias : String) (iterator : Expr) (result : Expr)
  | BinOp (op : String) (left : Expr) (right : Expr)
  | UnaryOp (op : String) (operand : Expr)
  | FunctionCall (func : String) (args : List Expr)
  | IfElse (if_expr : Expr) (condition : Expr) (else_expr : Expr)
  | StringConstant (v : String)
  | IntegerConstant (v : Nat) (isNeg : Bool)
  | BooleanConstant (v : Bool)
  | Set (elements : List Expr)
  | Tuple (elements : List Expr)
  | TypeCast (typ : String) (e : Expr)
  | Path (p : SPath)

/-- A `qlast.SortExpr`: sort-key expression, direction (`"ASC"`/`"DESC"`),
and nones placement (`"first"`/`"last"` or absent). -/
inductive SortSpec where
  | mk (path : Expr) (direction : String) (nones_order : Option String)

end

def SortSpec.path : SortSpec → Expr
  | .mk p _ _ => p

def SortSpec.direction : SortSpec → String
  | .mk _ d _ => d

def SortSpec.nones_order : SortSpec → Option String
  | .mk _ _ o => o

/-- `simplify_path`: translate a surface path to an internal path (the
expression-rooted step case of the source is outside the fragment). -/
def simplify_path (p : SPath) : IPath :=
  match p with
  | .mk pd steps =>
    (if pd then [IPathElement.IPartial] else []) ++
      steps.map (fun s =>
        match s with
        | .ObjectRef n => IPathElement.IORef n
        | .Ptr n d => IPathElement.IPtr n d
        | .TypeIntersection t => IPathElement.ITypeIntersection t)

-- ############# Toy basis

/-- Type modifiers (`ft.TypeModifier` as used by the source: `SET_OF`,
`OPTIONAL`, `SINGLETON`). -/
inductive Mod where
  | SET_OF
  | OPTIONAL
  | SINGLETON
  deriving DecidableEq, Repr

/-- The `BASIS` table: argument type-modifier lists for the operations with
non-`SINGLETON` behaviour. -/
def BASIS : List (String × List Mod) :=
  [("count", [.SET_OF]),
   ("sum", [.SET_OF]),
   ("min", [.SET_OF]),
   ("max", [.SET_OF]),
   ("all", [.SET_OF]),
   ("any", [.SET_OF]),
   ("enumerate", [.SET_OF]),
   ("IN", [.SINGLETON, .SET_OF]),
   ("??", [.OPTIONAL, .SET_OF]),
   ("EXISTS", [.SET_OF]),
   ("DISTINCT", [.SET_OF]),
   ("IF", [.SET_OF, .SINGLETON, .SET_OF]),
   ("UNION", [.SET_OF, .SET_OF]),
   ("?=", [.OPTIONAL, .OPTIONAL]),
   ("?!=", [.OPTIONAL, .OPTIONAL])]

/-- ASCII uppercase of an operator name (`op.upper()`; operator names are
ASCII). -/
def charUpper (c : Char) : Char :=
  if 97 ≤ c.val.toNat && c.val.toNat ≤ 122 then Char.ofNat (c.val.toNat - 32)
  else c

def pyUpper (s : String) : String := ⟨s.data.map charUpper⟩

/-- `BASIS.get(op)`. -/
def basisGet (op : String) : Option (List Mod) :=
  (BASIS.find? (fun p => p.1 == op)).map (·.2)

/-- A lifted implementation: from the per-argument multisets to the result
multiset (`LiftedFunc` in the source). -/
abbrev LiftedFunc := List (List Data) → Except Err (List Data)

/-- Effectful map over a list, failing at the first error (the shape of the
source's list comprehensions and loops over fallible steps). -/
def mapME {α β : Type} (f : α → Except Err β) : List α → Except Err (List β)
  | [] => .ok []
  | x :: xs => do
    let y ← f x
    let ys ← mapME f xs
    pure (y :: ys)

/-- `itertools.product(*args)`: Cartesian product in declared order, leftmost
argument varying slowest. -/
def cartProd : List (List Data) → List (List Data)
  | [] => [[]]
  | xs :: rest => (xs.map (fun x => (cartProd rest).map (fun c => x :: c))).flatten

/-- `lift(f)`: element-wise lift.  Apply `f` to every tuple of the Cartesian
product of the argument multisets; a returned Python list is spliced into
the output (`out.extend`), any other value is appended. -/
def lift (f : List Data → Except Err Data) : LiftedFunc := fun args => do
  let vals ← mapME f (cartProd args)
  pure (vals.flatMap (fun v => match v with | .DList l => l | v => [v]))

/-- `lift_set_of(f)`: apply `f` once to the argument multisets, producing a
one-element multiset. -/
def lift_set_of (f : List (List Data) → Except Err Data) : LiftedFunc :=
  fun args => do
    let v ← f args
    pure [v]

/-- Scalar equality test used by the lifted `=` (`operator.eq`). -/
def eqF : List Data → Except Err Data
  | [a, b] => .ok (.DBool (a == b))
  | _ => .error .typeError

/-- Scalar inequality test used by the lifted `!=` (`operator.ne`). -/
def neF : List Data → Except Err Data
  | [a, b] => .ok (.DBool (a != b))
  | _ => .error .typeError

/-- `opt_eq`: if either side is empty compare cardinalities, else lift `=`. -/
def opt_eq (x y : List Data) : Except Err (List Data) :=
  if x = [] ∨ y = [] then .ok [.DBool (x.length == y.length)]
  else lift eqF [x, y]

/-- `opt_ne`: if either side is empty compare cardinalities, else lift `!=`. -/
def opt_ne (x y : List Data) : Except Err (List Data) :=
  if x = [] ∨ y = [] then .ok [.DBool (x.length != y.length)]
  else lift neF [x, y]

/-- `contains(es, s)` (the `IN` implementation): membership of each element
of the left multiset in the right multiset. -/
def containsF : LiftedFunc
  | [es, s] => .ok (es.map (fun e => Data.DBool (s.contains e)))
  | _ => .error .typeError

/-- `coalesce(x, y)` (the `??` implementation): `x or y`. -/
def coalesceF : LiftedFunc
  | [x, y] => .ok (if x = [] then y else x)
  | _ => .error .typeError

/-- `union(x, y)`: concatenation. -/
def unionF : LiftedFunc
  | [x, y] => .ok (x ++ y)
  | _ => .error .typeError

/-- `distinct(x)`: in-order deduplication. -/
def distinctF : LiftedFunc
  | [x] => .ok (dedup x)
  | _ => .error .typeError

/-- `if_(x, bs, y)`: per truthy/falsy condition element, splice in the
`then` or `else` multiset. -/
def ifF : LiftedFunc
  | [x, bs, y] => .ok (bs.flatMap (fun b => if pyTruthy b then x else y))
  | _ => .error .typeError

/-- `enumerate_(x)`: pair each element with its zero-based index. -/
def enumerateF : LiftedFunc
  | [x] => .ok (x.enum.map (fun p => Data.DTuple [.DInt p.1, p.2]))
  | _ => .error .typeError

/-- Python `int`/`bool` numeric coercion (`bool` is an `int` subclass). -/
def asIntCoerce : Data → Option Int
  | .DInt n => some n
  | .DBool b => some (if b then 1 else 0)
  | _ => none

/-- Python `+` (`operator.add`): ints (and booleans), string and sequence
concatenation; other operand combinations raise `TypeError` (float
arithmetic is outside the modelled fragment). -/
def addF : List Data → Except Err Data
  | [a, b] =>
    match asIntCoerce a, asIntCoerce b with
    | some x, some y => .ok (.DInt (x + y))
    | _, _ =>
      match a, b with
      | .DStr s, .DStr t => .ok (.DStr (s ++ t))
      | .DList l, .DList m => .ok (.DList (l ++ m))
      | .DTuple l, .DTuple m => .ok (.DTuple (l ++ m))
      | _, _ => .error .typeError
  | _ => .error .typeError

/-- Python `-` on ints and booleans. -/
def subF : List Data → Except Err Data
  | [a, b] =>
    match asIntCoerce a, asIntCoerce b with
    | some x, some y => .ok (.DInt (x - y))
    | _, _ => .error .typeError
  | _ => .error .typeError

/-- Python `*` on ints and booleans. -/
def mulF : List Data → Except Err Data
  | [a, b] =>
    match asIntCoerce a, asIntCoerce b with
    | some x, some y => .ok (.DInt (x * y))
    | _, _ => .error .typeError
  | _ => .error .typeError

/-- Comparison implementations over `dataLt` (see the `dataCmp` caveat). -/
def ltF : List Data → Except Err Data
  | [a, b] => .ok (.DBool (dataLt a b))
  | _ => .error .typeError

def leF : List Data → Except Err Data
  | [a, b] => .ok (.DBool (dataLt a b || a == b))
  | _ => .error .typeError

def gtF : List Data → Except Err Data
  | [a, b] => .ok (.DBool (dataLt b a))
  | _ => .error .typeError

def geF : List Data → Except Err Data
  | [a, b] => .ok (.DBool (dataLt b a || a == b))
  | _ => .error .typeError

/-- Python unary `-` (`operator.neg`). -/
def negF : List Data → Except Err Data
  | [a] =>
    match asIntCoerce a with
    | some x => .ok (.DInt (-x))
    | none =>
      match a with
      | .DFloat q => .ok (.DFloat (-q))
      | _ => .error .typeError
  | _ => .error .typeError

/-- Python unary `+` (`operator.pos`). -/
def posF : List Data → Except Err Data
  | [a] =>
    match asIntCoerce a with
    | some x => .ok (.DInt x)
    | none =>
      match a with
      | .DFloat q => .ok (.DFloat q)
      | _ => .error .typeError
  | _ => .error .typeError

/-- Python `not` by truthiness (`operator.not_`). -/
def notF : List Data → Except Err Data
  | [a] => .ok (.DBool (!pyTruthy a))
  | _ => .error .typeError

/-- `bool(m)` on the whole multiset (the `EXISTS` aggregate). -/
def existsA : List (List Data) → Except Err Data
  | [m] => .ok (.DBool (m ≠ []))
  | _ => .error .typeError

/-- `len(m)` on the whole multiset (the `count` aggregate). -/
def countA : List (List Data) → Except Err Data
  | [m] => .ok (.DInt m.length)
  | _ => .error .typeError

/-- `sum(m)`: fold Python `+` from `0` (ints and booleans in the fragment;
anything else raises `TypeError`, as summing strings does in Python). -/
def sumA : List (List Data) → Except Err Data
  | [m] => m.foldlM (fun acc v => addF [acc, v]) (Data.DInt 0)
  | _ => .error .typeError

/-- `min(m)`: `ValueError` on an empty sequence, else the first minimal
element under `<`. -/
def minA : List (List Data) → Except Err Data
  | [m] =>
    match m with
    | [] => .error .valueError
    | x :: xs => .ok (xs.foldl (fun a b => if dataLt b a then b else a) x)
  | _ => .error .typeError

/-- `max(m)`: `ValueError` on an empty sequence, else the first maximal
element under `<`. -/
def maxA : List (List Data) → Except Err Data
  | [m] =>
    match m with
    | [] => .error .valueError
    | x :: xs => .ok (xs.foldl (fun a b => if dataLt a b then b else a) x)
  | _ => .error .typeError

/-- `all(m)` by truthiness. -/
def allA : List (List Data) → Except Err Data
  | [m] => .ok (.DBool (m.all pyTruthy))
  | _ => .error .typeError

/-- `any(m)` by truthiness. -/
def anyA : List (List Data) → Except Err Data
  | [m] => .ok (.DBool (m.any pyTruthy))
  | _ => .error .typeError

/-- `len(x)` element-wise (strings, tuples, lists, dicts; `TypeError`
otherwise, as in Python `len(1)`). -/
def lenF : List Data → Except Err Data
  | [v] =>
    match v with
    | .DStr s => .ok (.DInt s.length)
    | .DTuple l => .ok (.DInt l.length)
    | .DList l => .ok (.DInt l.length)
    | .DDict l => .ok (.DInt l.length)
    | _ => .error .typeError
  | _ => .error .typeError

/-- `random.random()`: the ambient random source of the run, modelled as a
rational supplied to the evaluator; calling it with arguments is a
`TypeError`. -/
def randomF (rand : ℚ) : List Data → Except Err Data
  | [] => .ok (.DFloat rand)
  | _ => .error .typeError

/-- Python `int(x)` conversion: ints pass through, booleans coerce, strings
parse (`ValueError` on failure), floats truncate toward zero. -/
def pyToInt : Data → Except Err Int
  | .DInt n => .ok n
  | .DBool b => .ok (if b then 1 else 0)
  | .DStr s =>
    (match s.toInt? with
     | some n => .ok n
     | none => .error .valueError)
  | .DFloat q => .ok (q.num / (q.den : Int))
  | _ => .error .typeError

/-- Python `str(x)` on the fragment's scalars. -/
def strCastF : List Data → Except Err Data
  | [v] =>
    match v with
    | .DStr s => .ok (.DStr s)
    | .DInt n => .ok (.DStr (toString n))
    | .DBool b => .ok (.DStr (if b then "True" else "False"))
    | _ => .error .typeError
  | _ => .error .typeError

/-- `int32`/`int64` casts via `int(x)`. -/
def intCastF : List Data → Except Err Data
  | [v] => (pyToInt v).map Data.DInt
  | _ => .error .typeError

/-- The rand-independent part of `BASIS_IMPLS[typ, op]` — the keyed table
of lifted implementations, minus `random`.  The source entries involving
float division or bitwise integer ops (`/`, `//`, `%`, `^`, `OR`, `AND`,
`contains`, `round`) are outside the modelled fragment. -/
def BASIS_IMPLS_fixed (typ op : String) : Option LiftedFunc :=
  match typ, op with
  | "binop", "+" => some (lift addF)
  | "binop", "-" => some (lift subF)
  | "binop", "*" => some (lift mulF)
  | "binop", "++" => some (lift addF)
  | "binop", "=" => some (lift eqF)
  | "binop", "!=" => some (lift neF)
  | "binop", "<" => some (lift ltF)
  | "binop", "<=" => some (lift leF)
  | "binop", ">" => some (lift gtF)
  | "binop", ">=" => some (lift geF)
  | "binop", "?=" =>
    some (fun args =>
      match args with
      | [x, y] => opt_eq x y
      | _ => .error .typeError)
  | "binop", "?!=" =>
    some (fun args =>
      match args with
      | [x, y] => opt_ne x y
      | _ => .error .typeError)
  | "binop", "IN" => some containsF
  | "binop", "??" => some coalesceF
  | "binop", "UNION" => some unionF
  | "binop", "IF" => some ifF
  | "unop", "-" => some (lift negF)
  | "unop", "+" => some (lift posF)
  | "unop", "NOT" => some (lift notF)
  | "unop", "EXISTS" => some (lift_set_of existsA)
  | "unop", "DISTINCT" => some distinctF
  | "cast", "str" => some (lift strCastF)
  | "cast", "int32" => some (lift intCastF)
  | "cast", "int64" => some (lift intCastF)
  | "func", "enumerate" => some enumerateF
  | "func", "count" => some (lift_set_of countA)
  | "func", "sum" => some (lift_set_of sumA)
  | "func", "min" => some (lift_set_of minA)
  | "func", "max" => some (lift_set_of maxA)
  | "func", "all" => some (lift_set_of allA)
  | "func", "any" => some (lift_set_of anyA)
  | "func", "len" => some (lift lenF)
  | _, _ => none

/-- `BASIS_IMPLS[typ, op]`: the keyed table, where only the `random` entry
mentions the ambient random source (Python dictionary lookup is
order-independent, so splitting that entry off is faithful). -/
def BASIS_IMPLS (rand : ℚ) (typ op : String) : Option LiftedFunc :=
  if typ = "func" ∧ op = "random" then some (lift (randomF rand))
  else BASIS_IMPLS_fixed typ op

-- ############# Evaluation context and pointer navigation

/-- A row of bound values parallel to a query input list (`Row` in the
source; the missing marker is the value `None`). -/
abbrev Row := List Data

/-- `EvalContext`: the query input list, the input tuple, the alias
environment, and the database. -/
structure EvalContext where
  query_input_list : List IPath
  input_tuple : Row
  aliases : List (String × List Data)
  db : DB

/-- `eval_objref(name, ctx)`: alias lookup first, else scan the database for
records of type `name`, wrapping their `id` attribute in object refs. -/
def eval_objref (name : String) (ctx : EvalContext) :
    Except Err (List Data) :=
  match List.find? (fun p => p.1 == name) ctx.aliases with
  | some p => .ok p.2
  | none => do
    let objs ← mapME (fun (r : Nat × Rec) => do
      let t ← recGetE r.2 "__type__"
      if t == Data.DStr name then do
        let i ← recGetE r.2 "id"
        match i with
        | .DId n => pure [Data.DObj n]
        | _ => Except.error Err.typeError
      else pure []) ctx.db
    pure objs.flatten

/-- Python sequence indexing with negative-index support. -/
def pyIndex (l : List Data) (i : Int) : Except Err Data :=
  let j := if i < 0 then i + l.length else i
  if j < 0 then .error .indexError
  else
    match l.get? j.toNat with
    | some v => .ok v
    | none => .error .indexError

/-- Integer parse of a pointer name (`int(ptr.ptr)`). -/
def parseIntE (s : String) : Except Err Int :=
  match s.toInt? with
  | some n => .ok n
  | none => .error .valueError

/-- `eval_fwd_ptr`: tuples index by position; object refs read the record
attribute via `get_links`; dicts subscript; anything else raises. -/
def eval_fwd_ptr (db : DB) (base : Data) (ptr : String) :
    Except Err (List Data) :=
  match base with
  | .DTuple l => do
    let i ← parseIntE ptr
    let v ← pyIndex l i
    pure [v]
  | .DObj n => do
    let r ← dbGet db n
    pure (get_links r ptr)
  | .DDict d => do
    let v ← recGetE d ptr
    pure [v]
  | _ => .error .typeError

/-- `eval_bwd_ptr`: scan the database for records whose `ptr` links contain
`base`. -/
def eval_bwd_ptr (db : DB) (base : Data) (ptr : String) :
    Except Err (List Data) := do
  let objs ← mapME (fun (r : Nat × Rec) =>
    if base ∈ get_links r.2 ptr then do
      let i ← recGetE r.2 "id"
      match i with
      | .DId n => pure [Data.DObj n]
      | _ => Except.error Err.typeError
    else pure []) db
  pure objs.flatten

/-- `eval_ptr`: forward on direction `>`, else backward. -/
def eval_ptr (db : DB) (base : Data) (ptr : String)
    (direction : Option String) : Except Err (List Data) :=
  if direction == some ">" then eval_fwd_ptr db base ptr
  else eval_bwd_ptr db base ptr

/-- `base["id"]` as the source's `eval_intersect` performs it: dicts
subscript; an `Obj` has no `__getitem__`, so subscripting it raises
`TypeError`. -/
def dataSubscript (base : Data) (k : String) : Except Err Data :=
  match base with
  | .DDict d => recGetE d k
  | _ => .error .typeError

/-- `eval_intersect`: match the record's `__type__` string exactly. -/
def eval_intersect (db : DB) (base : Data) (typ : String) :
    Except Err (List Data) := do
  let i ← dataSubscript base "id"
  match i with
  | .DId n => do
    let r ← dbGet db n
    let t ← recGetE r "__type__"
    pure (if t == Data.DStr typ then [base] else [])
  | _ => Except.error Err.typeError

/-- The loop body of `eval_path`'s recursive case: apply the final path
element to each base value, concatenating. -/
def applyPtrEls (db : DB) (ptrel : IPathElement) :
    List Data → Except Err (List Data)
  | [] => .ok []
  | x :: xs => do
    let out1 ←
      match ptrel with
      | .IPtr n d => eval_ptr db x n d
      | .ITypeIntersection t => eval_intersect db x t
      | _ => Except.error Err.assertionError
    let rest ← applyPtrEls db ptrel xs
    pure (out1 ++ rest)

/-- Both-ends-are-object-references test of `eval_path`'s dedup guard
(`base and isinstance(base[0], Obj)`). -/
def headIsObj (l : List Data) : Bool :=
  match l.head? with
  | some (.DObj _) => true
  | _ => false

/-- `eval_path`, indexed by fuel.  A path bound in the query input list
reads its input-tuple slot (`None` marking a missing value yields the empty
multiset); a single object-ref element scans the database; otherwise the
prefix is evaluated recursively, the last element applied to each base
value, and object-reference navigation results are deduplicated in order. -/
def eval_path : Nat → IPath → EvalContext → Except Err (List Data)
  | 0, _, _ => .error .outOfFuel
  | fuel + 1, path, ctx =>
    if path ∈ ctx.query_input_list then
      let i := ctx.query_input_list.indexOf path
      match ctx.input_tuple.get? i with
      | none => .error .indexError
      | some obj => .ok (if obj = .DNone then [] else [obj])
    else
      match path with
      | [.IORef name] => eval_objref name ctx
      | [_] => .error .assertionError
      | [] => .error .assertionError
      | _ :: _ :: _ => do
        let base ← eval_path fuel path.dropLast ctx
        match path.getLast? with
        | some ptrel =>
          match ptrel with
          | .IPtr _ _ | .ITypeIntersection _ => do
            let out ← applyPtrEls ctx.db ptrel base
            pure (if headIsObj base && headIsObj out then dedup out else out)
          | _ => Except.error Err.assertionError
        | none => Except.error Err.assertionError

-- ############# Path analysis (`PathFinder` / `find_paths`)

mutual

/-- The `PathFinder` visitor, indexed by fuel: collect
`(path, in_optional, in_subquery)` triples.  SELECT and FOR sub-expressions
set `in_subquery`; call-argument positions update the flags from the `BASIS`
modifier list and restore them afterwards. -/
def findPathsE : Nat → Bool → Bool → Expr →
    Except Err (List (SPath × Bool × Bool))
  | 0, _, _, _ => .error .outOfFuel
  | n + 1, inOpt, inSub, e =>
    match e with
    | .SelectQuery al res _ w ob off lim => do
      let p1 ← findPathsAliases n inOpt true al
      let p2 ← findPathsE n inOpt true res
      let p3 ← findPathsOpt n inOpt true w
      let p4 ← findPathsSorts n inOpt true ob
      let p5 ← findPathsOpt n inOpt true off
      let p6 ← findPathsOpt n inOpt true lim
      pure (p1 ++ p2 ++ p3 ++ p4 ++ p5 ++ p6)
    | .ForQuery _ it res => do
      let p1 ← findPathsE n inOpt true it
      let p2 ← findPathsE n inOpt true res
      pure (p1 ++ p2)
    | .BinOp op l r => findPathsArgs n inOpt inSub (basisGet (pyUpper op)) 0 [l, r]
    | .UnaryOp op x => findPathsArgs n inOpt inSub (basisGet (pyUpper op)) 0 [x]
    | .FunctionCall f args => findPathsArgs n inOpt inSub (basisGet f) 0 args
    | .IfElse a c el => findPathsArgs n inOpt inSub (basisGet "IF") 0 [a, c, el]
    | .StringConstant _ => .ok []
    | .IntegerConstant _ _ => .ok []
    | .BooleanConstant _ => .ok []
    | .Set es => findPathsList n inOpt inSub es
    | .Tuple es => findPathsList n inOpt inSub es
    | .TypeCast _ e1 => findPathsE n inOpt inSub e1
    | .Path p => .ok [(p, inOpt, inSub)]

/-- Visit a list of sub-expressions with unchanged flags. -/
def findPathsList : Nat → Bool → Bool → List Expr →
    Except Err (List (SPath × Bool × Bool))
  | 0, _, _, _ => .error .outOfFuel
  | _ + 1, _, _, [] => .ok []
  | n + 1, inOpt, inSub, e :: es => do
    let p ← findPathsE n inOpt inSub e
    let r ← findPathsList n inOpt inSub es
    pure (p ++ r)

/-- Visit SELECT alias expressions. -/
def findPathsAliases : Nat → Bool → Bool → List (String × Expr) →
    Except Err (List (SPath × Bool × Bool))
  | 0, _, _, _ => .error .outOfFuel
  | _ + 1, _, _, [] => .ok []
  | n + 1, inOpt, inSub, (_, e) :: es => do
    let p ← findPathsE n inOpt inSub e
    let r ← findPathsAliases n inOpt inSub es
    pure (p ++ r)

/-- Visit an optional sub-expression. -/
def findPathsOpt : Nat → Bool → Bool → Option Expr →
    Except Err (List (SPath × Bool × Bool))
  | 0, _, _, _ => .error .outOfFuel
  | _ + 1, _, _, none => .ok []
  | n + 1, inOpt, inSub, some e => findPathsE n inOpt inSub e

/-- Visit ORDER BY entries (their sort-key expressions). -/
def findPathsSorts : Nat → Bool → Bool → List SortSpec →
    Except Err (List (SPath × Bool × Bool))
  | 0, _, _, _ => .error .outOfFuel
  | _ + 1, _, _, [] => .ok []
  | n + 1, inOpt, inSub, .mk p _ _ :: ss => do
    let r1 ← findPathsE n inOpt inSub p
    let r2 ← findPathsSorts n inOpt inSub ss
    pure (r1 ++ r2)

/-- `visit_func_or_op`: per argument position, consult the modifier list
(`SET OF` enters a subquery, `OPTIONAL` an optional position), visit, and
restore the flags; an out-of-range position raises, and an absent or empty
modifier list leaves the flags unchanged. -/
def findPathsArgs : Nat → Bool → Bool → Option (List Mod) → Nat →
    List Expr → Except Err (List (SPath × Bool × Bool))
  | 0, _, _, _, _, _ => .error .outOfFuel
  | _ + 1, _, _, _, _, [] => .ok []
  | n + 1, inOpt, inSub, specs, i, a :: rest => do
    let flags ←
      match specs with
      | some (m :: ms) =>
        (match (m :: ms).get? i with
         | none => Except.error Err.indexError
         | some .SET_OF => pure (inOpt, true)
         | some .OPTIONAL => pure (true, inSub)
         | some .SINGLETON => pure (inOpt, inSub))
      | _ => pure (inOpt, inSub)
    let ps ← findPathsE n flags.1 flags.2 a
    let rest2 ← findPathsArgs n inOpt inSub specs (i + 1) rest
    pure (ps ++ rest2)

end

/-- Visit the extra subquery clauses (`pf.in_subquery = True` before
visiting them; `None` entries are skipped). -/
def findPathsExtras (fuel : Nat) :
    List (Option Expr) → Except Err (List (SPath × Bool × Bool))
  | [] => .ok []
  | none :: rest => findPathsExtras fuel rest
  | some e :: rest => do
    let p ← findPathsE fuel false true e
    let r ← findPathsExtras fuel rest
    pure (p ++ r)

/-- `find_paths(e, extra_subqs)`. -/
def find_paths (fuel : Nat) (e : Expr) (extra_subqs : List (Option Expr)) :
    Except Err (List (SPath × Bool × Bool)) := do
  let ps ← findPathsE fuel false false e
  let ps2 ← findPathsExtras fuel extra_subqs
  pure (ps ++ ps2)

/-- `analyze_paths`: simplify the collected paths, split them into direct
and subquery refs, and compute the `always_optional` map: a nonempty prefix
of a direct path visited outside any OPTIONAL position is not always
optional; everything else defaults to `True`. -/
def analyze_paths (fuel : Nat) (q : Expr) (extra_subqs : List (Option Expr)) :
    Except Err (List IPath × List IPath × (IPath → Bool)) := do
  let raw ← find_paths fuel q extra_subqs
  let paths_opt := raw.map (fun t => (simplify_path t.1, t.2.1, t.2.2))
  let direct_paths := (paths_opt.filter (fun t => !t.2.2)).map (fun t => t.1)
  let subquery_paths := (paths_opt.filter (fun t => t.2.2)).map (fun t => t.1)
  let always_optional : IPath → Bool := fun p =>
    !(paths_opt.any (fun t =>
        !t.2.2 && !t.2.1 && !(p.isEmpty) && p.isPrefixOf t.1))
  pure (direct_paths, subquery_paths, always_optional)

-- ############# Input tuples

/-- One column step of `build_input_tuples`: extend every partial row with
each value of the column path, or with the missing marker `None` when the
path is empty and always optional. -/
def bitRows (fuel : Nat) (p : IPath) (new_qil : List IPath)
    (ao : IPath → Bool) (ctx : EvalContext) :
    List Row → Except Err (List Row)
  | [] => .ok []
  | row :: rest => do
    let out ← eval_path fuel p
      {ctx with query_input_list := new_qil, input_tuple := row}
    let here :=
      if out = [] then (if ao p then [row ++ [Data.DNone]] else [])
      else out.map (fun v => row ++ [v])
    let rest2 ← bitRows fuel p new_qil ao ctx rest
    pure (here ++ rest2)

/-- Iterate the query input list left to right, each column evaluated
against the columns already bound. -/
def bitGo (fuel : Nat) (ao : IPath → Bool) (ctx : EvalContext) :
    List IPath → List IPath → List Row → Except Err (List Row)
  | _, [], data => .ok data
  | done, p :: rest, data => do
    let nd ← bitRows fuel p (ctx.query_input_list ++ done) ao ctx data
    bitGo fuel ao ctx (done ++ [p]) rest nd

/-- `build_input_tuples(qil, always_optional, ctx)`. -/
def build_input_tuples (fuel : Nat) (qil : List IPath)
    (ao : IPath → Bool) (ctx : EvalContext) : Except Err (List Row) :=
  bitGo fuel ao ctx [] qil [ctx.input_tuple]

-- ############# SELECT clause helpers

/-- Last column of each result row (`row[-1]`). -/
def rowsLast (rows : List Row) : Except Err (List Data) :=
  mapME (fun r =>
    match r.getLast? with
    | some v => Except.ok v
    | none => Except.error Err.indexError) rows

/-- Duplicate the last column (`row + (row[-1],)`) for `result_alias`. -/
def addAliasCol (rows : List Row) : Except Err (List Row) :=
  mapME (fun r =>
    match r.getLast? with
    | some v => Except.ok (r ++ [v])
    | none => Except.error Err.indexError) rows

/-- Python slice `l[n:]` (negative offsets count from the end). -/
def pyDropSlice (n : Int) (l : List Row) : List Row :=
  if 0 ≤ n then l.drop n.toNat else l.drop ((l.length + n).toNat)

/-- Python slice `l[:n]`. -/
def pyTakeSlice (n : Int) (l : List Row) : List Row :=
  if 0 ≤ n then l.take n.toNat else l.take ((l.length + n).toNat)

/-- A sort key as the source wraps it: an emptiness tag and the optional key
value (`(not nones_bigger, vals[0])` or `(nones_bigger,)`, compared as
Python tuples — a shorter tuple with equal prefix sorts first). -/
abbrev SortKey := Bool × Option Data

/-- Python `<` on wrapped sort keys. -/
def keyLt : SortKey → SortKey → Bool
  | (b1, v1), (b2, v2) =>
    if b1 = b2 then
      match v1, v2 with
      | none, none => false
      | none, some _ => true
      | some _, none => false
      | some x, some y => dataLt x y
    else (!b1 && b2)

/-- Non-strict key order: `a` may precede `b` iff `b` is not strictly
smaller (the order Python's stable sort realises). -/
def keyLe (a b : SortKey) : Bool := !(keyLt b a)

-- ############# The evaluator

mutual

/-- `eval` / `_eval` dispatch on the AST node kind, indexed by fuel.  `rand`
is the ambient random source of the run (see `randomF`). -/
def eval (rand : ℚ) : Nat → Expr → EvalContext → Except Err (List Data)
  | 0, _, _ => .error .outOfFuel
  | n + 1, e, ctx =>
    match e with
    | .SelectQuery al res ra w ob off lim => do
      let ctx1 ← evalAliases rand n al ctx
      let subqs := [w] ++ ob.map (fun s => some s.path)
      let (qil1, out1) ← subquery_full rand n res subqs ctx1
      let qil2 := qil1 ++ [[IPathElement.IPartial]]
      let (qil3, out2) ←
        match ra with
        | some al2 => do
          let outA ← addAliasCol out1
          pure (qil2 ++ [[IPathElement.IORef al2]], outA)
        | none => pure (qil2, out1)
      let out3 ← eval_filter rand n w qil3 out2 ctx1
      let out4 ← eval_orderby rand n ob qil3 out3 ctx1
      let out5 ← eval_offset rand n off out4 ctx1
      let out6 ← eval_limit rand n lim out5 ctx1
      rowsLast out6
    | .ForQuery al2 it res => do
      let vals ← subquery rand n it ctx
      evalForLoop rand n vals res
        (ctx.query_input_list ++ [[IPathElement.IORef al2]]) ctx
    | .BinOp op l r => eval_func_or_op rand n (pyUpper op) [l, r] "binop" ctx
    | .UnaryOp op x => eval_func_or_op rand n (pyUpper op) [x] "unop" ctx
    | .FunctionCall f args => eval_func_or_op rand n f args "func" ctx
    | .IfElse a c el => eval_func_or_op rand n "IF" [a, c, el] "binop" ctx
    | .StringConstant v => .ok [.DStr v]
    | .IntegerConstant v neg =>
      .ok [.DInt (if neg then -(v : Int) else (v : Int))]
    | .BooleanConstant b => .ok [.DBool b]
    | .Set es => evalSetLoop rand n es ctx
    | .Tuple es => do
      let args ← evalTupleArgs rand n es ctx
      lift (fun vs => .ok (.DTuple vs)) args
    | .TypeCast typ e1 =>
      (match BASIS_IMPLS rand "cast" typ with
       | none => Except.error Err.keyError
       | some f => do
         let v ← eval rand n e1 ctx
         f [v])
    | .Path p => eval_path n (simplify_path p) ctx

/-- Evaluate SELECT aliases in order; each alias expression sees the aliases
bound before it (dict assignment shadows older bindings). -/
def evalAliases (rand : ℚ) : Nat → List (String × Expr) → EvalContext →
    Except Err EvalContext
  | 0, _, _ => .error .outOfFuel
  | _ + 1, [], ctx => .ok ctx
  | n + 1, (a, ex) :: rest, ctx => do
    let vals ← subquery rand n ex ctx
    evalAliases rand n rest {ctx with aliases := (a, vals) :: ctx.aliases}

/-- The FOR loop: evaluate the result once per iterator value, the value
bound as an extra input-tuple column under the iterator alias. -/
def evalForLoop (rand : ℚ) : Nat → List Data → Expr → List IPath →
    EvalContext → Except Err (List Data)
  | 0, _, _, _, _ => .error .outOfFuel
  | _ + 1, [], _, _, _ => .ok []
  | n + 1, v :: vs, res, qil, ctx => do
    let r ← subquery rand n res
      {ctx with query_input_list := qil,
                input_tuple := ctx.input_tuple ++ [v]}
    let rest ← evalForLoop rand n vs res qil ctx
    pure (r ++ rest)

/-- Set literal: concatenation of the element multisets. -/
def evalSetLoop (rand : ℚ) : Nat → List Expr → EvalContext →
    Except Err (List Data)
  | 0, _, _ => .error .outOfFuel
  | _ + 1, [], _ => .ok []
  | n + 1, e :: es, ctx => do
    let v ← eval rand n e ctx
    let r ← evalSetLoop rand n es ctx
    pure (v ++ r)

/-- Tuple literal: the per-element argument multisets. -/
def evalTupleArgs (rand : ℚ) : Nat → List Expr → EvalContext →
    Except Err (List (List Data))
  | 0, _, _ => .error .outOfFuel
  | _ + 1, [], _ => .ok []
  | n + 1, e :: es, ctx => do
    let v ← eval rand n e ctx
    let r ← evalTupleArgs rand n es ctx
    pure (v :: r)

/-- The argument loop of `eval_func_or_op`: a `SET OF` position is a
subquery, every other position evaluates in the current context. -/
def evalArgsLoop (rand : ℚ) : Nat → Option (List Mod) → Nat → List Expr →
    EvalContext → Except Err (List (List Data))
  | 0, _, _, _, _ => .error .outOfFuel
  | _ + 1, _, _, [], _ => .ok []
  | n + 1, specs, i, a :: rest, ctx => do
    let r ←
      match specs with
      | some (m :: ms) =>
        (match (m :: ms).get? i with
         | none => Except.error Err.indexError
         | some .SET_OF => subquery rand n a ctx
         | some _ => eval rand n a ctx)
      | _ => eval rand n a ctx
    let rs ← evalArgsLoop rand n specs (i + 1) rest ctx
    pure (r :: rs)

/-- `eval_func_or_op(op, args, typ, ctx)`: gather argument multisets per the
`BASIS` modifier list, then apply the lifted implementation from
`BASIS_IMPLS` (`KeyError` when absent). -/
def eval_func_or_op (rand : ℚ) : Nat → String → List Expr → String →
    EvalContext → Except Err (List Data)
  | 0, _, _, _, _ => .error .outOfFuel
  | n + 1, op, args, typ, ctx => do
    let results ← evalArgsLoop rand n (basisGet op) 0 args ctx
    match BASIS_IMPLS rand typ op with
    | none => Except.error Err.keyError
    | some f => f results

/-- `subquery_full(q, extra_subqs, ctx)`: analyze paths, build the
additional query input list and the input tuples, then evaluate `q` once
per tuple, collecting `row ++ [value]` rows. -/
def subquery_full (rand : ℚ) : Nat → Expr → List (Option Expr) →
    EvalContext → Except Err (List IPath × List Row)
  | 0, _, _, _ => .error .outOfFuel
  | n + 1, q, extra_subqs, ctx => do
    let (direct_paths, subquery_paths, always_optional) ←
      analyze_paths n q extra_subqs
    let qil := make_query_input_list direct_paths subquery_paths
      ctx.query_input_list
    let in_tuples ← build_input_tuples n qil always_optional ctx
    let new_qil := ctx.query_input_list ++ qil
    let rows ← sfRows rand n q new_qil in_tuples ctx
    pure (new_qil, rows)

/-- The evaluation loop of `subquery_full`. -/
def sfRows (rand : ℚ) : Nat → Expr → List IPath → List Row →
    EvalContext → Except Err (List Row)
  | 0, _, _, _, _ => .error .outOfFuel
  | _ + 1, _, _, [], _ => .ok []
  | n + 1, q, new_qil, row :: rest, ctx => do
    let vals ← eval rand n q
      {ctx with query_input_list := new_qil, input_tuple := row}
    let rest2 ← sfRows rand n q new_qil rest ctx
    pure (vals.map (fun v => row ++ [v]) ++ rest2)

/-- `subquery(q, ctx)`: the last column of `subquery_full`'s rows. -/
def subquery (rand : ℚ) : Nat → Expr → EvalContext →
    Except Err (List Data)
  | 0, _, _ => .error .outOfFuel
  | n + 1, q, ctx => do
    let (_, rows) ← subquery_full rand n q [] ctx
    rowsLast rows

/-- `eval_filter`: keep the rows whose filter evaluation contains a truthy
element. -/
def eval_filter (rand : ℚ) : Nat → Option Expr → List IPath → List Row →
    EvalContext → Except Err (List Row)
  | 0, _, _, _, _ => .error .outOfFuel
  | _ + 1, none, _, out, _ => .ok out
  | n + 1, some wh, qil, out, ctx => filterRows rand n wh qil out ctx

/-- The row loop of `eval_filter`. -/
def filterRows (rand : ℚ) : Nat → Expr → List IPath → List Row →
    EvalContext → Except Err (List Row)
  | 0, _, _, _, _ => .error .outOfFuel
  | _ + 1, _, _, [], _ => .ok []
  | n + 1, wh, qil, row :: rest, ctx => do
    let vals ← subquery rand n wh
      {ctx with query_input_list := qil, input_tuple := row}
    let rest2 ← filterRows rand n wh qil rest ctx
    pure (if vals.any pyTruthy then row :: rest2 else rest2)

/-- `eval_orderby`: iterate the sort specifiers in reverse, relying on sort
stability. -/
def eval_orderby (rand : ℚ) : Nat → List SortSpec → List IPath →
    List Row → EvalContext → Except Err (List Row)
  | 0, _, _, _, _ => .error .outOfFuel
  | n + 1, orderby, qil, out, ctx => obRevLoop rand n orderby.reverse qil out ctx

/-- Process an already-reversed ORDER BY list, one stable sorting pass per
entry. -/
def obRevLoop (rand : ℚ) : Nat → List SortSpec → List IPath → List Row →
    EvalContext → Except Err (List Row)
  | 0, _, _, _, _ => .error .outOfFuel
  | _ + 1, [], _, out, _ => .ok out
  | n + 1, s :: rest, qil, out, ctx => do
    let out2 ← obPass rand n s qil out ctx
    obRevLoop rand n rest qil out2 ctx

/-- One ORDER BY pass: decorate each row with its wrapped sort key, sort
stably (Python `list.sort` with `reverse=` for `DESC`, modelled by a stable
insertion sort on the flipped key order), and undecorate. -/
def obPass (rand : ℚ) : Nat → SortSpec → List IPath → List Row →
    EvalContext → Except Err (List Row)
  | 0, _, _, _, _ => .error .outOfFuel
  | n + 1, s, qil, out, ctx => do
    let nones_bigger :=
      (s.direction == "ASC" && s.nones_order == some "last") ||
      (s.direction == "DESC" && s.nones_order == some "first")
    let decorated ← decorateRows rand n s.path qil nones_bigger out ctx
    let sorted :=
      if s.direction == "DESC" then
        List.insertionSort
          (fun x y : Row × SortKey => keyLe y.2 x.2 = true) decorated
      else
        List.insertionSort
          (fun x y : Row × SortKey => keyLe x.2 y.2 = true) decorated
    pure (sorted.map (fun x => x.1))

/-- Decorate each row with its wrapped sort key; a sort key producing more
than one value is an assertion failure. -/
def decorateRows (rand : ℚ) : Nat → Expr → List IPath → Bool → List Row →
    EvalContext → Except Err (List (Row × SortKey))
  | 0, _, _, _, _, _ => .error .outOfFuel
  | _ + 1, _, _, _, [], _ => .ok []
  | n + 1, path, qil, nones_bigger, row :: rest, ctx => do
    let vals ← subquery rand n path
      {ctx with query_input_list := qil, input_tuple := row}
    match vals with
    | [] => do
      let rest2 ← decorateRows rand n path qil nones_bigger rest ctx
      pure ((row, (nones_bigger, none)) :: rest2)
    | [v] => do
      let rest2 ← decorateRows rand n path qil nones_bigger rest ctx
      pure ((row, (!nones_bigger, some v)) :: rest2)
    | _ => .error .assertionError

/-- `eval_offset`: the offset clause must produce exactly one value
(`assert len(res) == 1`); drop that many leading rows. -/
def eval_offset (rand : ℚ) : Nat → Option Expr → List Row →
    EvalContext → Except Err (List Row)
  | 0, _, _, _ => .error .outOfFuel
  | _ + 1, none, out, _ => .ok out
  | n + 1, some o, out, ctx => do
    let res ← subquery rand n o ctx
    match res with
    | [v] => do
      let i ← pyToInt v
      pure (pyDropSlice i out)
    | _ => Except.error Err.assertionError

/-- `eval_limit`: the limit clause must produce exactly one value; keep that
many leading rows. -/
def eval_limit (rand : ℚ) : Nat → Option Expr → List Row →
    EvalContext → Except Err (List Row)
  | 0, _, _, _ => .error .outOfFuel
  | _ + 1, none, out, _ => .ok out
  | n + 1, some o, out, ctx => do
    let res ← subquery rand n o ctx
    match res with
    | [v] => do
      let i ← pyToInt v
      pure (pyTakeSlice i out)
    | _ => Except.error Err.assertionError

end

-- ############# Cleaning and entry point

mutual

/-- `clean_data`: replace object references by their shape mapping (always
`{"id": id}` in the fragment), recursing through dicts, tuples and lists. -/
def clean_data : Data → Data
  | .DObj n => .DDict [("id", .DId n)]
  | .DDict l => .DDict (cleanFields l)
  | .DTuple l => .DTuple (cleanList l)
  | .DList l => .DList (cleanList l)
  | v => v

/-- Clean every element of a value list. -/
def cleanList : List Data → List Data
  | [] => []
  | x :: xs => clean_data x :: cleanList xs

/-- Clean every field value of a dict. -/
def cleanFields : List (String × Data) → List (String × Data)
  | [] => []
  | (k, v) :: xs => (k, clean_data v) :: cleanFields xs

end

/-- `go(q, db)`: evaluate the query in an empty context over `db` and clean
the result. -/
def go (rand : ℚ) (fuel : Nat) (q : Expr) (db : DB) :
    Except Err (List Data) := do
  let out ← subquery rand fuel q ⟨[], [], [], db⟩
  pure (cleanList out)

-- ############# The toy database `DB1`

/-- `DB1` from the source: three Persons (Phil Emarg with notes boxing and
unboxing, Madeline Hatch with note unboxing, Emmanuel Villip with none) and
three Notes (boxing, unboxing, dynamic); uuids are modelled by their
numeric tails. -/
def DB1 : DB :=
  [(0x10, [("id", .DId 0x10), ("__type__", .DStr "Person"),
           ("name", .DStr "Phil Emarg"),
           ("notes", .DList [.DObj 0x20, .DObj 0x21])]),
   (0x11, [("id", .DId 0x11), ("__type__", .DStr "Person"),
           ("name", .DStr "Madeline Hatch"),
           ("notes", .DList [.DObj 0x21])]),
   (0x12, [("id", .DId 0x12), ("__type__", .DStr "Person"),
           ("name", .DStr "Emmanuel Villip")]),
   (0x20, [("id", .DId 0x20), ("__type__", .DStr "Note"),
           ("name", .DStr "boxing")]),
   (0x21, [("id", .DId 0x21), ("__type__", .DStr "Note"),
           ("name", .DStr "unboxing"), ("note", .DStr "lolol")]),
   (0x22, [("id", .DId 0x22), ("__type__", .DStr "Note"),
           ("name", .DStr "dynamic"), ("note", .DStr "blarg")])]

-- ############# Random-free queries

mutual

/-- A query is random-free when no `random` call occurs anywhere in it. -/
def randFree : Expr → Bool
  | .SelectQuery al res _ w ob off lim =>
    randFreeAliases al && randFree res && randFreeOpt w &&
      randFreeSorts ob && randFreeOpt off && randFreeOpt lim
  | .ForQuery _ it res => randFree it && randFree res
  | .BinOp _ l r => randFree l && randFree r
  | .UnaryOp _ x => randFree x
  | .FunctionCall f args => (f != "random") && randFreeList args
  | .IfElse a c el => randFree a && randFree c && randFree el
  | .StringConstant _ => true
  | .IntegerConstant _ _ => true
  | .BooleanConstant _ => true
  | .Set es => randFreeList es
  | .Tuple es => randFreeList es
  | .TypeCast _ e => randFree e
  | .Path _ => true

def randFreeList : List Expr → Bool
  | [] => true
  | e :: es => randFree e && randFreeList es

def randFreeAliases : List (String × Expr) → Bool
  | [] => true
  | (_, e) :: es => randFree e && randFreeAliases es

def randFreeOpt : Option Expr → Bool
  | none => true
  | some e => randFree e

def randFreeSorts : List SortSpec → Bool
  | [] => true
  | .mk p _ _ :: ss => randFree p && randFreeSorts ss

end

-- ############# Verified properties

@[simp] theorem exc_bind_ok {α β : Type} (x : α) (f : α → Except Err β) :
    (Except.ok x >>= f) = f x := rfl

@[simp] theorem exc_bind_error {α β : Type} (e : Err) (f : α → Except Err β) :
    ((Except.error e : Except Err α) >>= f) = Except.error e := rfl

@[simp] theorem exc_pure_def {α : Type} (x : α) :
    (pure x : Except Err α) = Except.ok x := rfl

@[simp] theorem exc_map_ok {α β : Type} (g : α → β) (x : α) :
    (g <$> (Except.ok x : Except Err α)) = Except.ok (g x) := rfl

@[simp] theorem exc_map_error {α β : Type} (g : α → β) (e : Err) :
    (g <$> (Except.error e : Except Err α)) = Except.error e := rfl

@[simp] theorem exc_ok_ne_error {α : Type} (x : α) (e : Err) :
    (Except.ok x : Except Err α) ≠ Except.error e := by
  intro h; cases h

@[simp] theorem exc_error_ne_ok {α : Type} (x : α) (e : Err) :
    (Except.error e : Except Err α) ≠ Except.ok x := by
  intro h; cases h

@[simp] theorem exc_ok_inj {α : Type} (x y : α) :
    ((Except.ok x : Except Err α) = Except.ok y) ↔ x = y := by
  constructor
  · intro h; cases h; rfl
  · intro h; rw [h]

theorem mapME_ok_length {α β : Type} (f : α → Except Err β) :
    ∀ (l : List α) (l2 : List β), mapME f l = .ok l2 → l2.length = l.length := by
  intro l
  induction l with
  | nil =>
    intro l2 h
    simp only [mapME, exc_ok_inj] at h
    simp [← h]
  | cons x xs ih =>
    intro l2 h
    simp only [mapME] at h
    cases hy : f x with
    | error e => simp [hy] at h
    | ok y =>
      simp only [hy, exc_bind_ok] at h
      cases hys : mapME f xs with
      | error e => simp [hys] at h
      | ok ys =>
        simp only [hys, exc_bind_ok, exc_pure_def, exc_ok_inj] at h
        simp [← h, ih ys hys]

theorem mapME_ok_mem {α β : Type} (f : α → Except Err β) :
    ∀ (l : List α) (l2 : List β), mapME f l = .ok l2 →
      ∀ y ∈ l2, ∃ x ∈ l, f x = .ok y := by
  intro l
  induction l with
  | nil =>
    intro l2 h
    simp only [mapME, exc_ok_inj] at h
    simp [← h]
  | cons x xs ih =>
    intro l2 h
    simp only [mapME] at h
    cases hy : f x with
    | error e => simp [hy] at h
    | ok y =>
      simp only [hy, exc_bind_ok] at h
      cases hys : mapME f xs with
      | error e => simp [hys] at h
      | ok ys =>
        simp only [hys, exc_bind_ok, exc_pure_def, exc_ok_inj] at h
        intro z hz
        rw [← h] at hz
        rcases List.mem_cons.1 hz with rfl | hz2
        · exact ⟨x, List.mem_cons_self x xs, hy⟩
        · rcases ih ys hys z hz2 with ⟨w, hw, hfw⟩
          exact ⟨w, List.mem_cons_of_mem x hw, hfw⟩

theorem cartProd_length :
    ∀ args : List (List Data),
      (cartProd args).length = (args.map List.length).prod := by
  intro args
  induction args with
  | nil => simp [cartProd]
  | cons xs rest ih =>
    simp only [cartProd, List.map_cons, List.prod_cons]
    rw [List.length_flatten]
    induction xs with
    | nil => simp
    | cons x xs2 ih2 =>
      simp only [List.map_cons, List.sum_cons, List.length_map, ih]
      simp only [List.map_cons, List.sum_cons] at ih2
      rw [ih2]
      simp [List.length_cons]
      ring

theorem flatMap_singletons :
    ∀ vals : List Data, (∀ v ∈ vals, ∀ l, v ≠ Data.DList l) →
      (vals.flatMap (fun v => match v with | .DList l => l | v => [v])) = vals
  | [], _ => rfl
  | v :: vs, h => by
    have ih := flatMap_singletons vs
      (fun w hw l2 => h w (List.mem_cons_of_mem v hw) l2)
    cases v <;>
      first
      | exact absurd rfl (h _ (List.mem_cons_self _ _) _)
      | simp [List.flatMap_cons, ih]

/-- C4 (amended): the element-wise lift multiplies cardinalities whenever
the lifted function returns a scalar (non-list) value — as every
element-wise basis operation does on scalar inputs; in particular an empty
argument yields an empty result.  (As stated over arbitrary multisets the
claim fails: `lift` splices list-valued results, see the counterexample.) -/
theorem C4_elementwise_cardinality (f : List Data → Except Err Data)
    (hf : ∀ xs v, f xs = .ok v → ∀ l, v ≠ Data.DList l)
    (args : List (List Data)) (r : List Data)
    (h : lift f args = .ok r) :
    r.length = (args.map List.length).prod ∧ ([] ∈ args → r = []) := by
  simp only [lift] at h
  cases hm : mapME f (cartProd args) with
  | error e => simp [hm] at h
  | ok vals =>
    simp only [hm, exc_bind_ok, exc_pure_def, exc_ok_inj] at h
    have hall : ∀ v ∈ vals, ∀ l, v ≠ Data.DList l := by
      intro v hv l2
      rcases mapME_ok_mem f _ _ hm v hv with ⟨x, _, hfx⟩
      exact hf x v hfx l2
    rw [← h, flatMap_singletons vals hall]
    have hlen : vals.length = (args.map List.length).prod := by
      rw [mapME_ok_length f _ _ hm, cartProd_length]
    refine ⟨hlen, ?_⟩
    intro hmemb
    have hz : (args.map List.length).prod = 0 :=
      List.prod_eq_zero (List.mem_map.2 ⟨[], hmemb, rfl⟩)
    have : vals.length = 0 := by rw [hlen, hz]
    exact List.eq_nil_of_length_eq_zero this

/-- C4 counterexample: the claim universally quantifies over argument
multisets, but `lift` splices list-valued results (`out.extend(val)`), so
the lifted `+` applied to two singleton multisets holding Python lists
yields three elements, not `1·1 = 1`. -/
theorem C4_counterexample :
    lift addF [[Data.DList [.DInt 1, .DInt 2]], [Data.DList [.DInt 3]]] =
      .ok [.DInt 1, .DInt 2, .DInt 3] ∧
    ([[Data.DList [.DInt 1, .DInt 2]], [Data.DList [.DInt 3]]].map
      List.length).prod = 1 ∧
    (3 : Nat) ≠ 1 ∧
    BASIS_IMPLS 0 "binop" "+" = some (lift addF) :=
  ⟨rfl, rfl, by decide, rfl⟩

/-- C4 witness: the cardinality law applied to the lifted `=` on concrete
multisets of sizes 2 and 2. -/
theorem C4_elementwise_cardinality_witness :
    ∃ r, lift eqF [[Data.DInt 1, .DInt 2], [.DInt 1, .DInt 3]] = .ok r ∧
      r.length = 4 := by
  refine ⟨[.DBool true, .DBool false, .DBool false, .DBool false], rfl, ?_⟩
  have h := C4_elementwise_cardinality eqF
    (by
      intro xs v hv l
      match xs with
      | [] => simp [eqF] at hv
      | [a] => simp [eqF] at hv
      | [a, b] =>
        simp only [eqF, exc_ok_inj] at hv
        rw [← hv]
        intro hc
        cases hc
      | a :: b :: c :: t => simp [eqF] at hv)
    [[Data.DInt 1, .DInt 2], [.DInt 1, .DInt 3]]
    [.DBool true, .DBool false, .DBool false, .DBool false] rfl
  exact h.1

/-- C3 (amended): a set-of-lifted aggregate yields exactly one element
whenever its application succeeds; `count`, `all`, `any` always succeed;
`min` and `max` raise `ValueError` exactly on the empty multiset.  (As
stated — "including the empty multiset" for every aggregate — the claim
fails on `min`/`max`, see the counterexample.) -/
theorem C3_setof_lift_cardinality :
    (∀ (f : List (List Data) → Except Err Data) (args : List (List Data))
       (r : List Data), lift_set_of f args = .ok r → r.length = 1) ∧
    (∀ m : List Data,
      lift_set_of countA [m] = .ok [.DInt m.length] ∧
      (lift_set_of allA [m]).isOk ∧ (lift_set_of anyA [m]).isOk) ∧
    (∀ m : List Data,
      (lift_set_of minA [m] = .error .valueError ↔ m = []) ∧
      (lift_set_of maxA [m] = .error .valueError ↔ m = [])) := by
  refine ⟨?_, ?_, ?_⟩
  · intro f args r h
    simp only [lift_set_of] at h
    cases hv : f args with
    | error e => simp [hv] at h
    | ok v =>
      simp only [hv, exc_bind_ok, exc_pure_def, exc_ok_inj] at h
      simp [← h]
  · intro m
    refine ⟨rfl, ?_, ?_⟩ <;> simp [lift_set_of, countA, allA, anyA, Except.isOk, Except.toBool]
  · intro m
    cases m with
    | nil => simp [lift_set_of, minA, maxA]
    | cons x xs => simp [lift_set_of, minA, maxA]

/-- C3 counterexample: `min` (and `max`) applied to the empty multiset
raises `ValueError` instead of producing a one-element multiset; these are
the `func` basis implementations for `min`/`max`. -/
theorem C3_counterexample :
    lift_set_of minA [[]] = .error .valueError ∧
    lift_set_of maxA [[]] = .error .valueError ∧
    BASIS_IMPLS 0 "func" "min" = some (lift_set_of minA) ∧
    BASIS_IMPLS 0 "func" "max" = some (lift_set_of maxA) :=
  ⟨rfl, rfl, rfl, rfl⟩

/-- C3 witness: the cardinality law applied to `sum` on a concrete
multiset. -/
theorem C3_setof_lift_cardinality_witness :
    lift_set_of sumA [[Data.DInt 2, .DInt 3]] = .ok [.DInt 5] ∧
    [Data.DInt 5].length = 1 :=
  ⟨rfl, C3_setof_lift_cardinality.1 sumA [[Data.DInt 2, .DInt 3]] [.DInt 5] rfl⟩

/-- C5: optional equality `?=` compares cardinalities when either side is
empty and otherwise element-wise lifts `=`; dually `?!=` with `!=`; hence
`{} ?= {}` is `[true]`, `{} ?= {v}` is `[false]`, `{v} ?= {v}` is
`[true]`. -/
theorem C5_optional_equality :
    (∀ x y : List Data, (x = [] ∨ y = []) →
      opt_eq x y = .ok [.DBool (x.length == y.length)] ∧
      opt_ne x y = .ok [.DBool (x.length != y.length)]) ∧
    (∀ x y : List Data, x ≠ [] → y ≠ [] →
      opt_eq x y = lift eqF [x, y] ∧ opt_ne x y = lift neF [x, y]) ∧
    opt_eq [] [] = .ok [.DBool true] ∧
    (∀ v : Data, opt_eq [] [v] = .ok [.DBool false] ∧
      opt_eq [v] [v] = .ok [.DBool true]) := by
  refine ⟨?_, ?_, rfl, ?_⟩
  · intro x y h
    rw [opt_eq, opt_ne, if_pos h, if_pos h]
    exact ⟨rfl, rfl⟩
  · intro x y hx hy
    rw [opt_eq, opt_ne, if_neg (by simp [hx, hy]), if_neg (by simp [hx, hy])]
    exact ⟨rfl, rfl⟩
  · intro v
    refine ⟨rfl, ?_⟩
    show lift eqF [[v], [v]] = .ok [.DBool true]
    simp [lift, cartProd, mapME, eqF]

/-- C5 witness: the empty-side and nonempty cases at concrete inputs. -/
theorem C5_optional_equality_witness :
    opt_eq [] [Data.DInt 7] = .ok [.DBool false] ∧
    opt_eq [Data.DInt 7] [Data.DInt 8] = lift eqF [[Data.DInt 7], [Data.DInt 8]] := by
  constructor
  · have h := (C5_optional_equality.1 [] [Data.DInt 7] (Or.inl rfl)).1
    simpa using h
  · exact (C5_optional_equality.2.1 [Data.DInt 7] [Data.DInt 8]
      (by simp) (by simp)).1

-- ############# Concrete queries and databases used by the claims

/-- `SELECT e` with no clauses. -/
def mkSelect (e : Expr) : Expr := .SelectQuery [] e none none [] none none

/-- The surface path `Person.name`. -/
def pPersonName : Expr :=
  .Path (.mk false [.ObjectRef "Person", .Ptr "name" (some ">")])

/-- The surface path `Person.notes`. -/
def pPersonNotes : Expr :=
  .Path (.mk false [.ObjectRef "Person", .Ptr "notes" (some ">")])

/-- `SELECT (Person.name, Person.name)`. -/
def qPair : Expr := mkSelect (.Tuple [pPersonName, pPersonName])

/-- `SELECT count(Person.notes)`. -/
def qCountNotes : Expr := mkSelect (.FunctionCall "count" [pPersonNotes])

/-- `SELECT Person.tag ?= 'foo'`. -/
def qTag : Expr :=
  mkSelect (.BinOp "?="
    (.Path (.mk false [.ObjectRef "Person", .Ptr "tag" (some ">")]))
    (.StringConstant "foo"))

/-- A one-person database whose `tag` attribute stores the value `None`. -/
def dbTagNone : DB :=
  [(1, [("id", .DId 1), ("__type__", .DStr "Person"),
        ("name", .DStr "A"), ("tag", .DNone)])]

/-- The same database without the `tag` attribute. -/
def dbTagAbsent : DB :=
  [(1, [("id", .DId 1), ("__type__", .DStr "Person"),
        ("name", .DStr "A")])]

/-- `SELECT 1 OFFSET <int64>{}` — the offset clause evaluates to the empty
multiset. -/
def qOffsetEmpty : Expr :=
  .SelectQuery [] (.IntegerConstant 1 false) none none []
    (some (.TypeCast "int64" (.Set []))) none

/-- `SELECT random()`. -/
def qRandom : Expr := mkSelect (.FunctionCall "random" [])

-- ############# C1 / C10: correlation and the missing marker

theorem eval_path_bound_slot (fuel : Nat) (ctx : EvalContext) (p : IPath)
    (v : Data) (hmem : p ∈ ctx.query_input_list)
    (hslot : ctx.input_tuple.get? (ctx.query_input_list.indexOf p) = some v) :
    eval_path (fuel + 1) p ctx = .ok (if v = .DNone then [] else [v]) := by
  simp only [eval_path]
  rw [if_pos hmem]
  rw [List.get?_eq_getElem?] at hslot
  simp [hslot]

/-- C1: a path bound in the query input list evaluates to exactly the one
value of its input-tuple slot (when present); concretely, over `DB1`,
`SELECT (Person.name, Person.name)` yields the three correlated pairs
`(n, n)` — not nine. -/
theorem C1_correlation :
    (∀ (fuel : Nat) (ctx : EvalContext) (p : IPath) (v : Data),
      p ∈ ctx.query_input_list →
      ctx.input_tuple.get? (ctx.query_input_list.indexOf p) = some v →
      v ≠ .DNone →
      eval_path (fuel + 1) p ctx = .ok [v]) ∧
    go 0 100 qPair DB1 =
      .ok [.DTuple [.DStr "Phil Emarg", .DStr "Phil Emarg"],
           .DTuple [.DStr "Madeline Hatch", .DStr "Madeline Hatch"],
           .DTuple [.DStr "Emmanuel Villip", .DStr "Emmanuel Villip"]] := by
  constructor
  · intro fuel ctx p v hmem hslot hv
    rw [eval_path_bound_slot fuel ctx p v hmem hslot, if_neg hv]
  · rfl

/-- C1 witness: the bound-slot law applied in a concrete context binding
`Person.name` to `"a"`. -/
theorem C1_correlation_witness :
    eval_path 1 [.IORef "Person", .IPtr "name" (some ">")]
      ⟨[[.IORef "Person", .IPtr "name" (some ">")]], [.DStr "a"], [], []⟩ =
      .ok [.DStr "a"] :=
  C1_correlation.1 0
    ⟨[[.IORef "Person", .IPtr "name" (some ">")]], [.DStr "a"], [], []⟩
    [.IORef "Person", .IPtr "name" (some ">")] (.DStr "a")
    (by simp) rfl (by simp)

/-- C10: the missing marker is the value `None`: a bound path yields the
empty multiset exactly when its slot is `None`, and the one-element multiset
of the slot value otherwise; consequently a stored `None` attribute, once
materialized as an input-tuple column, is indistinguishable from an absent
(optional-empty) attribute — `SELECT Person.tag ?= 'foo'` evaluates
identically over the two databases. -/
theorem C10_none_missing_marker :
    (∀ (fuel : Nat) (ctx : EvalContext) (p : IPath) (v : Data),
      p ∈ ctx.query_input_list →
      ctx.input_tuple.get? (ctx.query_input_list.indexOf p) = some v →
      eval_path (fuel + 1) p ctx = .ok (if v = .DNone then [] else [v])) ∧
    go 0 50 qTag dbTagNone = go 0 50 qTag dbTagAbsent ∧
    go 0 50 qTag dbTagNone = .ok [.DBool false] := by
  have h1 : go 0 50 qTag dbTagNone = .ok [.DBool false] := rfl
  have h2 : go 0 50 qTag dbTagAbsent = .ok [.DBool false] := rfl
  exact ⟨eval_path_bound_slot, h1.trans h2.symm, h1⟩

/-- C10 witness: the bound-slot law applied to a `None` slot. -/
theorem C10_none_missing_marker_witness :
    eval_path 1 [.IORef "Person", .IPtr "tag" (some ">")]
      ⟨[[.IORef "Person", .IPtr "tag" (some ">")]], [.DNone], [], []⟩ =
      .ok [] := by
  have h := C10_none_missing_marker.1 0
    ⟨[[.IORef "Person", .IPtr "tag" (some ">")]], [.DNone], [], []⟩
    [.IORef "Person", .IPtr "tag" (some ">")] .DNone (by simp) rfl
  simpa using h

-- ############# C6: path-navigation dedup

/-- The first-occurrence-wins specification of deduplication: keep the head,
drop its later duplicates, recurse. -/
def dedupSpec : List Data → List Data
  | [] => []
  | x :: xs => x :: dedupSpec (xs.filter (fun y => y ≠ x))
termination_by l => l.length
decreasing_by
  simp only [List.length_cons]
  have := List.length_filter_le (fun y => decide (y ≠ x)) xs
  omega

theorem dedupGo_mem : ∀ (l acc : List Data) (x : Data),
    x ∈ dedupGo l acc ↔ x ∈ acc ∨ x ∈ l := by
  intro l
  induction l with
  | nil => intro acc x; simp [dedupGo]
  | cons y ys ih =>
    intro acc x
    by_cases hy : y ∈ acc
    · rw [dedupGo, if_pos hy, ih]
      simp only [List.mem_cons]
      constructor
      · rintro (h | h)
        · exact Or.inl h
        · exact Or.inr (Or.inr h)
      · rintro (h | rfl | h)
        · exact Or.inl h
        · exact Or.inl hy
        · exact Or.inr h
    · rw [dedupGo, if_neg hy, ih]
      simp only [List.mem_append, List.mem_singleton, List.mem_cons]
      tauto

theorem dedupGo_nodup : ∀ (l acc : List Data), acc.Nodup →
    (dedupGo l acc).Nodup := by
  intro l
  induction l with
  | nil => intro acc h; simpa [dedupGo] using h
  | cons y ys ih =>
    intro acc h
    by_cases hy : y ∈ acc
    · rw [dedupGo, if_pos hy]; exact ih acc h
    · rw [dedupGo, if_neg hy]
      exact ih (acc ++ [y]) (by simp [List.nodup_append, h, hy])

theorem dedupGo_sublist : ∀ (l acc : List Data), List.Sublist (dedupGo l acc) (acc ++ l) := by
  intro l
  induction l with
  | nil => intro acc; simp [dedupGo]
  | cons y ys ih =>
    intro acc
    by_cases hy : y ∈ acc
    · rw [dedupGo, if_pos hy]
      exact (ih acc).trans (List.Sublist.append_left (List.sublist_cons_self y ys) acc)
    · rw [dedupGo, if_neg hy]
      have h2 := ih (acc ++ [y])
      rwa [List.append_assoc, List.singleton_append] at h2

theorem dedupGo_decomp : ∀ (l acc : List Data),
    dedupGo l acc = acc ++ dedupGo (l.filter (fun x => x ∉ acc)) []
  | [], acc => by simp [dedupGo]
  | y :: ys, acc => by
    by_cases hy : y ∈ acc
    · rw [dedupGo, if_pos hy, dedupGo_decomp ys acc, List.filter_cons,
        if_neg (by simpa using hy)]
    · rw [dedupGo, if_neg hy, dedupGo_decomp ys (acc ++ [y]),
        List.filter_cons, if_pos (by simpa using hy)]
      conv_rhs =>
        rw [dedupGo, if_neg (List.not_mem_nil y), List.nil_append,
          dedupGo_decomp (ys.filter fun x => x ∉ acc) [y]]
      rw [List.append_assoc, List.singleton_append]
      congr 2
      rw [List.filter_filter]
      rw [show ∀ l : List Data, [].append l = l from fun l => rfl]
      congr 1
      apply List.filter_congr
      intro a _
      by_cases h1 : a ∈ acc <;> by_cases h2 : a = y <;>
        simp [h1, h2, List.mem_append]
termination_by l _ => l.length
decreasing_by
  all_goals simp only [List.length_cons]
  all_goals
    first
    | omega
    | exact Nat.lt_succ_of_le (List.length_filter_le _ _)

theorem dedup_eq_dedupSpec : ∀ l : List Data, dedup l = dedupSpec l
  | [] => by simp [dedup, dedupGo, dedupSpec]
  | x :: xs => by
    show dedupGo (x :: xs) [] = dedupSpec (x :: xs)
    rw [dedupGo, if_neg (List.not_mem_nil x), List.nil_append,
      dedupGo_decomp xs [x], dedupSpec, List.singleton_append]
    congr 1
    have hco : xs.filter (fun a => a ∉ [x]) = xs.filter (fun y => y ≠ x) := by
      apply List.filter_congr
      intro a _
      simp
    rw [hco]
    exact dedup_eq_dedupSpec (xs.filter (fun y => y ≠ x))
termination_by l => l.length
decreasing_by
  simp only [List.length_cons]
  exact Nat.lt_succ_of_le (List.length_filter_le _ _)

theorem eval_path_step (fuel : Nat) (ctx : EvalContext) (p : IPath)
    (el : IPathElement) (base out : List Data)
    (hp : p ≠ [])
    (hnotin : (p ++ [el]) ∉ ctx.query_input_list)
    (hel : (∃ n d, el = .IPtr n d) ∨ (∃ t, el = .ITypeIntersection t))
    (hbase : eval_path fuel p ctx = .ok base)
    (happly : applyPtrEls ctx.db el base = .ok out) :
    eval_path (fuel + 1) (p ++ [el]) ctx =
      .ok (if headIsObj base && headIsObj out then dedup out else out) := by
  rcases List.exists_cons_of_ne_nil hp with ⟨a, as, rfl⟩
  rcases List.exists_cons_of_ne_nil
    (show as ++ [el] ≠ [] by simp) with ⟨b, bs, hbs⟩
  simp only [eval_path, List.cons_append, hbs]
  rw [if_neg (show a :: b :: bs ∉ ctx.query_input_list by
    rw [List.cons_append, hbs] at hnotin; exact hnotin)]
  rw [← hbs, ← List.cons_append]
  rw [List.dropLast_concat, List.getLast?_concat]
  rw [hbase]
  rcases hel with ⟨n, d, rfl⟩ | ⟨t, rfl⟩ <;>
    simp [happly]

/-- C6 (amended): when the last path element maps the base multiset to the
result multiset and both start with object references, the result is
deduplicated in order — `dedup` keeps the first occurrence of each value
(`dedupSpec`), is duplicate-free, and is an order-preserving subsequence;
otherwise every duplicate is preserved.  Concretely, over `DB1`,
`SELECT count(Person.notes)` yields `[2]` (boxing and unboxing, each once),
not the claimed `[3]`. -/
theorem C6_path_dedup :
    (∀ (fuel : Nat) (ctx : EvalContext) (p : IPath) (el : IPathElement)
       (base out : List Data),
      p ≠ [] →
      (p ++ [el]) ∉ ctx.query_input_list →
      (∃ n d, el = .IPtr n d) ∨ (∃ t, el = .ITypeIntersection t) →
      eval_path fuel p ctx = .ok base →
      applyPtrEls ctx.db el base = .ok out →
      eval_path (fuel + 1) (p ++ [el]) ctx =
        .ok (if headIsObj base && headIsObj out then dedup out else out)) ∧
    (∀ l : List Data,
      dedup l = dedupSpec l ∧ (dedup l).Nodup ∧ List.Sublist (dedup l) l ∧
      (∀ x, x ∈ dedup l ↔ x ∈ l)) ∧
    go 0 100 qCountNotes DB1 = .ok [.DInt 2] := by
  refine ⟨eval_path_step, ?_, rfl⟩
  intro l
  refine ⟨dedup_eq_dedupSpec l, dedupGo_nodup l [] List.nodup_nil, ?_, ?_⟩
  · simpa using dedupGo_sublist l []
  · intro x
    simpa using dedupGo_mem l [] x

/-- C6 counterexample: the claim asserts `SELECT count(Person.notes)` yields
`[3]`; the evaluator (deduplicating the note objects) yields `[2]`. -/
theorem C6_counterexample :
    go 0 100 qCountNotes DB1 = .ok [.DInt 2] ∧
    go 0 100 qCountNotes DB1 ≠ .ok [.DInt 3] := by
  have h : go 0 100 qCountNotes DB1 = .ok [.DInt 2] := rfl
  refine ⟨h, ?_⟩
  rw [h]
  intro hc
  simp at hc

/-- C6 witness: the dedup step applied to `Person.notes` over `DB1` — the
base persons yield notes `[0x20, 0x21, 0x21]`, deduplicated to
`[0x20, 0x21]`. -/
theorem C6_path_dedup_witness :
    eval_path 2 [.IORef "Person", .IPtr "notes" (some ">")]
      ⟨[], [], [], DB1⟩ = .ok [.DObj 0x20, .DObj 0x21] := by
  have h := C6_path_dedup.1 1 ⟨[], [], [], DB1⟩ [.IORef "Person"]
    (.IPtr "notes" (some ">"))
    [.DObj 0x10, .DObj 0x11, .DObj 0x12]
    [.DObj 0x20, .DObj 0x21, .DObj 0x21]
    (by simp) (by simp) (Or.inl ⟨"notes", some ">", rfl⟩) rfl rfl
  exact h

-- ############# C7: clause cardinality

theorem pyToInt_ne_assert (v : Data) :
    pyToInt v ≠ .error .assertionError := by
  cases v <;> simp [pyToInt]
  case DStr s => cases s.toInt? <;> simp

theorem eval_offset_assert_iff (rand : ℚ) (fuel : Nat) (o : Expr)
    (out : List Row) (ctx : EvalContext) (res : List Data)
    (h : subquery rand fuel o ctx = .ok res) :
    (eval_offset rand (fuel + 1) (some o) out ctx = .error .assertionError ↔
      res.length ≠ 1) := by
  simp only [eval_offset, h, exc_bind_ok]
  match res with
  | [] => simp
  | [v] =>
    simp only [List.length_singleton, ne_eq, not_true_eq_false, iff_false]
    cases hv : pyToInt v with
    | ok i => simp [hv]
    | error e =>
      simp only [hv, exc_bind_error]
      intro hc
      cases hc
      exact pyToInt_ne_assert v hv
  | a :: b :: t => simp

theorem eval_limit_assert_iff (rand : ℚ) (fuel : Nat) (o : Expr)
    (out : List Row) (ctx : EvalContext) (res : List Data)
    (h : subquery rand fuel o ctx = .ok res) :
    (eval_limit rand (fuel + 1) (some o) out ctx = .error .assertionError ↔
      res.length ≠ 1) := by
  simp only [eval_limit, h, exc_bind_ok]
  match res with
  | [] => simp
  | [v] =>
    simp only [List.length_singleton, ne_eq, not_true_eq_false, iff_false]
    cases hv : pyToInt v with
    | ok i => simp [hv]
    | error e =>
      simp only [hv, exc_bind_error]
      intro hc
      cases hc
      exact pyToInt_ne_assert v hv
  | a :: b :: t => simp

/-- Every sort-key evaluation of the rows, at the fuel the pass consumes it,
succeeds with at most one value. -/
def KeysSmall (rand : ℚ) : Nat → Expr → List IPath → EvalContext →
    List Row → Prop
  | _ + 1, _, _, _, [] => True
  | fuel + 1, path, qil, ctx, row :: rest =>
    (∃ res, subquery rand fuel path
        {ctx with query_input_list := qil, input_tuple := row} = .ok res ∧
      res.length ≤ 1) ∧
    KeysSmall rand fuel path qil ctx rest
  | 0, _, _, _, _ => False

/-- Some sort-key evaluation yields more than one value (the preceding ones
succeeding with at most one). -/
def KeysBad (rand : ℚ) : Nat → Expr → List IPath → EvalContext →
    List Row → Prop
  | _ + 1, _, _, _, [] => False
  | fuel + 1, path, qil, ctx, row :: rest =>
    (∃ res, subquery rand fuel path
        {ctx with query_input_list := qil, input_tuple := row} = .ok res ∧
      2 ≤ res.length) ∨
    ((∃ res, subquery rand fuel path
        {ctx with query_input_list := qil, input_tuple := row} = .ok res ∧
      res.length ≤ 1) ∧
    KeysBad rand fuel path qil ctx rest)
  | 0, _, _, _, _ => False

theorem decorateRows_ok (rand : ℚ) (path : Expr) (qil : List IPath)
    (nb : Bool) (ctx : EvalContext) :
    ∀ (rows : List Row) (fuel : Nat),
      KeysSmall rand fuel path qil ctx rows →
      ∃ dec, decorateRows rand fuel path qil nb rows ctx = .ok dec ∧
        dec.map Prod.fst = rows := by
  intro rows
  induction rows with
  | nil =>
    intro fuel hk
    match fuel with
    | 0 => exact absurd hk (by simp [KeysSmall])
    | n + 1 => exact ⟨[], rfl, rfl⟩
  | cons row rest ih =>
    intro fuel hk
    match fuel with
    | 0 => exact absurd hk (by simp [KeysSmall])
    | n + 1 =>
      obtain ⟨⟨res, hres, hlen⟩, hrest⟩ := hk
      obtain ⟨dec, hdec, hmap⟩ := ih n hrest
      match res, hlen with
      | [], _ =>
        refine ⟨(row, (nb, none)) :: dec, ?_, by simp [hmap]⟩
        simp [decorateRows, hres, hdec]
      | [v], _ =>
        refine ⟨(row, (!nb, some v)) :: dec, ?_, by simp [hmap]⟩
        simp [decorateRows, hres, hdec]

theorem decorateRows_err (rand : ℚ) (path : Expr) (qil : List IPath)
    (nb : Bool) (ctx : EvalContext) :
    ∀ (rows : List Row) (fuel : Nat),
      KeysBad rand fuel path qil ctx rows →
      decorateRows rand fuel path qil nb rows ctx =
        .error .assertionError := by
  intro rows
  induction rows with
  | nil =>
    intro fuel hk
    match fuel with
    | 0 => exact absurd hk (by simp [KeysBad])
    | n + 1 => exact absurd hk (by simp [KeysBad])
  | cons row rest ih =>
    intro fuel hk
    match fuel with
    | 0 => exact absurd hk (by simp [KeysBad])
    | n + 1 =>
      rcases hk with ⟨res, hres, hlen⟩ | ⟨⟨res, hres, hlen⟩, hrest⟩
      · match res, hlen with
        | a :: b :: t, _ => simp [decorateRows, hres]
      · have hr := ih n hrest
        match res, hlen with
        | [], _ => simp [decorateRows, hres, hr]
        | [v], _ => simp [decorateRows, hres, hr]

/-- C7 (amended): the offset and limit clause applications raise the
cardinality assertion exactly when the clause yields a number of values
other than one (so a clause yielding the empty multiset also raises, contra
the claim); in an ORDER BY pass, decorating the rows with their sort keys —
the phase that checks the assertion — succeeds, keeping every row in order,
when every sort key yields at most one value, and the pass raises the
assertion when some sort key yields more than one.  (Nothing is asserted
about the subsequent sort completing: in the source that depends on the
keys being comparable, which the model's total value order does not track.)
Concretely `SELECT 1 OFFSET <int64>{}` raises. -/
theorem C7_clause_cardinality :
    (∀ (rand : ℚ) (fuel : Nat) (o : Expr) (out : List Row)
       (ctx : EvalContext) (res : List Data),
      subquery rand fuel o ctx = .ok res →
      ((eval_offset rand (fuel + 1) (some o) out ctx =
          .error .assertionError ↔ res.length ≠ 1) ∧
       (eval_limit rand (fuel + 1) (some o) out ctx =
          .error .assertionError ↔ res.length ≠ 1))) ∧
    (∀ (rand : ℚ) (fuel : Nat) (p : Expr) (qil : List IPath) (nb : Bool)
       (out : List Row) (ctx : EvalContext),
      KeysSmall rand fuel p qil ctx out →
      ∃ dec, decorateRows rand fuel p qil nb out ctx = .ok dec ∧
        dec.map Prod.fst = out) ∧
    (∀ (rand : ℚ) (fuel : Nat) (s : SortSpec) (qil : List IPath)
       (out : List Row) (ctx : EvalContext),
      KeysBad rand fuel s.path qil ctx out →
      obPass rand (fuel + 1) s qil out ctx = .error .assertionError) ∧
    go 0 100 qOffsetEmpty DB1 = .error .assertionError := by
  refine ⟨?_, ?_, ?_, rfl⟩
  · intro rand fuel o out ctx res h
    exact ⟨eval_offset_assert_iff rand fuel o out ctx res h,
      eval_limit_assert_iff rand fuel o out ctx res h⟩
  · intro rand fuel p qil nb out ctx hk
    exact decorateRows_ok rand p qil nb ctx out fuel hk
  · intro rand fuel s qil out ctx hk
    have h := decorateRows_err rand s.path qil
      ((s.direction == "ASC" && s.nones_order == some "last") ||
       (s.direction == "DESC" && s.nones_order == some "first"))
      ctx out fuel hk
    simp [obPass, h]

/-- C7 counterexample: `SELECT 1 OFFSET <int64>{}` raises the cardinality
assertion although its offset clause produces no value at all (zero values,
which is not more than one). -/
theorem C7_counterexample :
    go 0 100 qOffsetEmpty DB1 = .error .assertionError ∧
    subquery 0 97 (.TypeCast "int64" (.Set [])) ⟨[], [], [], DB1⟩ =
      .ok [] ∧
    ([] : List Data).length ≤ 1 :=
  ⟨rfl, rfl, by decide⟩

/-- C7 witness: the offset biconditional applied to the empty offset clause
at a concrete context. -/
theorem C7_clause_cardinality_witness :
    eval_offset 0 11 (some (.TypeCast "int64" (.Set [])))
      [[Data.DInt 1]] ⟨[], [], [], DB1⟩ = .error .assertionError :=
  ((C7_clause_cardinality.1 0 10 (.TypeCast "int64" (.Set []))
    [[Data.DInt 1]] ⟨[], [], [], DB1⟩ [] rfl).1).mpr (by decide)

-- ############# Fuel monotonicity

theorem bindMono {α β : Type} {m m2 : Except Err α} {f f2 : α → Except Err β}
    (hne : (m >>= f) ≠ .error .outOfFuel)
    (hm : m ≠ .error .outOfFuel → m2 = m)
    (hf : ∀ a, m = .ok a → f a ≠ .error .outOfFuel → f2 a = f a) :
    (m2 >>= f2) = (m >>= f) := by
  cases hm0 : m with
  | error e =>
    have hme : (m >>= f) = .error e := by rw [hm0]; rfl
    rw [hme] at hne
    have he : m ≠ .error .outOfFuel := by
      rw [hm0]
      intro hc
      cases hc
      exact hne rfl
    rw [hm he, hm0]
    rfl
  | ok a =>
    have hma : m ≠ .error .outOfFuel := by rw [hm0]; exact exc_ok_ne_error a _
    have hfa : f a ≠ .error .outOfFuel := by
      have : (m >>= f) = f a := by rw [hm0]; rfl
      rwa [this] at hne
    rw [hm hma, hm0, exc_bind_ok, exc_bind_ok, hf a hm0 hfa]

theorem findPaths_mono : ∀ n : Nat,
    (∀ o s e, findPathsE n o s e ≠ .error .outOfFuel →
      findPathsE (n + 1) o s e = findPathsE n o s e) ∧
    (∀ o s es, findPathsList n o s es ≠ .error .outOfFuel →
      findPathsList (n + 1) o s es = findPathsList n o s es) ∧
    (∀ o s al, findPathsAliases n o s al ≠ .error .outOfFuel →
      findPathsAliases (n + 1) o s al = findPathsAliases n o s al) ∧
    (∀ o s w, findPathsOpt n o s w ≠ .error .outOfFuel →
      findPathsOpt (n + 1) o s w = findPathsOpt n o s w) ∧
    (∀ o s ob, findPathsSorts n o s ob ≠ .error .outOfFuel →
      findPathsSorts (n + 1) o s ob = findPathsSorts n o s ob) ∧
    (∀ o s sp i args, findPathsArgs n o s sp i args ≠ .error .outOfFuel →
      findPathsArgs (n + 1) o s sp i args = findPathsArgs n o s sp i args) := by
  intro n
  induction n with
  | zero =>
    refine ⟨?_, ?_, ?_, ?_, ?_, ?_⟩ <;> intro o s x <;>
      first
      | (intro h; exact absurd rfl h)
      | (intro i args h; exact absurd rfl h)
  | succ n ih =>
    obtain ⟨ihE, ihL, ihA, ihO, ihS, ihG⟩ := ih
    have stepE : ∀ o s e, findPathsE (n + 1) o s e ≠ .error .outOfFuel →
        findPathsE (n + 2) o s e = findPathsE (n + 1) o s e := by
      intro o s e hne
      cases e with
      | SelectQuery al res ra w ob off lim =>
        simp only [findPathsE] at hne ⊢
        refine bindMono hne (ihA o true al) ?_
        intro p1 h1 hne1
        refine bindMono hne1 (ihE o true res) ?_
        intro p2 h2 hne2
        refine bindMono hne2 (ihO o true w) ?_
        intro p3 h3 hne3
        refine bindMono hne3 (ihS o true ob) ?_
        intro p4 h4 hne4
        refine bindMono hne4 (ihO o true off) ?_
        intro p5 h5 hne5
        refine bindMono hne5 (ihO o true lim) ?_
        intro p6 h6 hne6
        rfl
      | ForQuery a it res =>
        simp only [findPathsE] at hne ⊢
        refine bindMono hne (ihE o true it) ?_
        intro p1 h1 hne1
        refine bindMono hne1 (ihE o true res) ?_
        intro p2 h2 hne2
        rfl
      | BinOp op l r =>
        simp only [findPathsE] at hne ⊢
        exact ihG o s (basisGet (pyUpper op)) 0 [l, r] hne
      | UnaryOp op x =>
        simp only [findPathsE] at hne ⊢
        exact ihG o s (basisGet (pyUpper op)) 0 [x] hne
      | FunctionCall f args =>
        simp only [findPathsE] at hne ⊢
        exact ihG o s (basisGet f) 0 args hne
      | IfElse a c el =>
        simp only [findPathsE] at hne ⊢
        exact ihG o s (basisGet "IF") 0 [a, c, el] hne
      | StringConstant v => rfl
      | IntegerConstant v b => rfl
      | BooleanConstant b => rfl
      | Set es =>
        simp only [findPathsE] at hne ⊢
        exact ihL o s es hne
      | Tuple es =>
        simp only [findPathsE] at hne ⊢
        exact ihL o s es hne
      | TypeCast t e1 =>
        simp only [findPathsE] at hne ⊢
        exact ihE o s e1 hne
      | Path p => rfl
    refine ⟨stepE, ?_, ?_, ?_, ?_, ?_⟩
    · intro o s es hne
      cases es with
      | nil => rfl
      | cons e es2 =>
        simp only [findPathsList] at hne ⊢
        refine bindMono hne (ihE o s e) ?_
        intro p1 h1 hne1
        refine bindMono hne1 (ihL o s es2) ?_
        intro p2 h2 hne2
        rfl
    · intro o s al hne
      cases al with
      | nil => rfl
      | cons pr es2 =>
        obtain ⟨a, e⟩ := pr
        simp only [findPathsAliases] at hne ⊢
        refine bindMono hne (ihE o s e) ?_
        intro p1 h1 hne1
        refine bindMono hne1 (ihA o s es2) ?_
        intro p2 h2 hne2
        rfl
    · intro o s w hne
      cases w with
      | none => rfl
      | some e =>
        simp only [findPathsOpt] at hne ⊢
        exact ihE o s e hne
    · intro o s ob hne
      cases ob with
      | nil => rfl
      | cons sp ss =>
        obtain ⟨p, d, no⟩ := sp
        simp only [findPathsSorts] at hne ⊢
        refine bindMono hne (ihE o s p) ?_
        intro p1 h1 hne1
        refine bindMono hne1 (ihS o s ss) ?_
        intro p2 h2 hne2
        rfl
    · intro o s sp i args hne
      match args with
      | [] => rfl
      | a :: rest =>
        match sp with
        | none =>
          simp only [findPathsArgs] at hne ⊢
          refine bindMono hne (fun _ => rfl) ?_
          intro fl hfl hne1
          refine bindMono hne1 (ihE fl.1 fl.2 a) ?_
          intro p1 h1 hne2
          refine bindMono hne2 (ihG o s none (i + 1) rest) ?_
          intro p2 h2 hne3
          rfl
        | some [] =>
          simp only [findPathsArgs] at hne ⊢
          refine bindMono hne (fun _ => rfl) ?_
          intro fl hfl hne1
          refine bindMono hne1 (ihE fl.1 fl.2 a) ?_
          intro p1 h1 hne2
          refine bindMono hne2 (ihG o s (some []) (i + 1) rest) ?_
          intro p2 h2 hne3
          rfl
        | some (m :: ms) =>
          simp only [findPathsArgs] at hne ⊢
          refine bindMono hne (fun _ => rfl) ?_
          intro fl hfl hne1
          refine bindMono hne1 (ihE fl.1 fl.2 a) ?_
          intro p1 h1 hne2
          refine bindMono hne2 (ihG o s (some (m :: ms)) (i + 1) rest) ?_
          intro p2 h2 hne3
          rfl

theorem findPathsExtras_mono (n : Nat) :
    ∀ ex, findPathsExtras n ex ≠ .error .outOfFuel →
      findPathsExtras (n + 1) ex = findPathsExtras n ex := by
  intro ex
  induction ex with
  | nil => intro h; rfl
  | cons oe rest ih =>
    intro hne
    cases oe with
    | none =>
      simp only [findPathsExtras] at hne ⊢
      exact ih hne
    | some e =>
      simp only [findPathsExtras] at hne ⊢
      refine bindMono hne ((findPaths_mono n).1 false true e) ?_
      intro p1 h1 hne1
      refine bindMono hne1 ih ?_
      intro p2 h2 hne2
      rfl

theorem find_paths_mono (n : Nat) (q : Expr) (ex : List (Option Expr)) :
    find_paths n q ex ≠ .error .outOfFuel →
      find_paths (n + 1) q ex = find_paths n q ex := by
  intro hne
  simp only [find_paths] at hne ⊢
  refine bindMono hne ((findPaths_mono n).1 false false q) ?_
  intro ps hps hne1
  refine bindMono hne1 (findPathsExtras_mono n ex) ?_
  intro ps2 h2 hne2
  rfl

theorem analyze_paths_mono (n : Nat) (q : Expr) (ex : List (Option Expr)) :
    analyze_paths n q ex ≠ .error .outOfFuel →
      analyze_paths (n + 1) q ex = analyze_paths n q ex := by
  intro hne
  simp only [analyze_paths] at hne ⊢
  refine bindMono hne (find_paths_mono n q ex) ?_
  intro raw hraw hne1
  rfl

theorem eval_path_mono : ∀ (n : Nat) (p : IPath) (ctx : EvalContext),
    eval_path n p ctx ≠ .error .outOfFuel →
      eval_path (n + 1) p ctx = eval_path n p ctx := by
  intro n
  induction n with
  | zero => intro p ctx h; exact absurd rfl h
  | succ n ih =>
    intro p ctx hne
    by_cases hmem : p ∈ ctx.query_input_list
    · simp [eval_path, hmem]
    · match p with
      | [] => simp [eval_path, hmem]
      | [x] =>
        cases x <;> simp [eval_path, hmem]
      | a :: b :: t =>
        simp only [eval_path, if_neg hmem] at hne ⊢
        refine bindMono hne (ih (a :: b :: t).dropLast ctx) ?_
        intro base hb hne1
        rfl

theorem bitRows_mono (n : Nat) (p : IPath) (qil : List IPath)
    (ao : IPath → Bool) (ctx : EvalContext) :
    ∀ rows, bitRows n p qil ao ctx rows ≠ .error .outOfFuel →
      bitRows (n + 1) p qil ao ctx rows = bitRows n p qil ao ctx rows := by
  intro rows
  induction rows with
  | nil => intro h; rfl
  | cons row rest ih =>
    intro hne
    simp only [bitRows] at hne ⊢
    refine bindMono hne (eval_path_mono n p _) ?_
    intro out hout hne1
    refine bindMono hne1 ih ?_
    intro r2 h2 hne2
    rfl

theorem bitGo_mono (n : Nat) (ao : IPath → Bool) (ctx : EvalContext) :
    ∀ (rest done : List IPath) (data : List Row),
      bitGo n ao ctx done rest data ≠ .error .outOfFuel →
        bitGo (n + 1) ao ctx done rest data = bitGo n ao ctx done rest data := by
  intro rest
  induction rest with
  | nil => intro done data h; rfl
  | cons p ps ih =>
    intro done data hne
    simp only [bitGo] at hne ⊢
    refine bindMono hne (bitRows_mono n p _ ao ctx data) ?_
    intro nd hnd hne1
    exact ih (done ++ [p]) nd hne1

theorem build_input_tuples_mono (n : Nat) (qil : List IPath)
    (ao : IPath → Bool) (ctx : EvalContext)
    (hne : build_input_tuples n qil ao ctx ≠ .error .outOfFuel) :
    build_input_tuples (n + 1) qil ao ctx = build_input_tuples n qil ao ctx := by
  simp only [build_input_tuples] at hne ⊢
  exact bitGo_mono n ao ctx qil [] [ctx.input_tuple] hne

theorem evalMono (rand : ℚ) : ∀ n : Nat,
    (∀ e c, eval rand n e c ≠ .error .outOfFuel →
      eval rand (n + 1) e c = eval rand n e c) ∧
    (∀ al c, evalAliases rand n al c ≠ .error .outOfFuel →
      evalAliases rand (n + 1) al c = evalAliases rand n al c) ∧
    (∀ vs res qil c, evalForLoop rand n vs res qil c ≠ .error .outOfFuel →
      evalForLoop rand (n + 1) vs res qil c = evalForLoop rand n vs res qil c) ∧
    (∀ es c, evalSetLoop rand n es c ≠ .error .outOfFuel →
      evalSetLoop rand (n + 1) es c = evalSetLoop rand n es c) ∧
    (∀ es c, evalTupleArgs rand n es c ≠ .error .outOfFuel →
      evalTupleArgs rand (n + 1) es c = evalTupleArgs rand n es c) ∧
    (∀ sp i args c, evalArgsLoop rand n sp i args c ≠ .error .outOfFuel →
      evalArgsLoop rand (n + 1) sp i args c = evalArgsLoop rand n sp i args c) ∧
    (∀ op args typ c, eval_func_or_op rand n op args typ c ≠ .error .outOfFuel →
      eval_func_or_op rand (n + 1) op args typ c =
        eval_func_or_op rand n op args typ c) ∧
    (∀ q ex c, subquery_full rand n q ex c ≠ .error .outOfFuel →
      subquery_full rand (n + 1) q ex c = subquery_full rand n q ex c) ∧
    (∀ q qil rows c, sfRows rand n q qil rows c ≠ .error .outOfFuel →
      sfRows rand (n + 1) q qil rows c = sfRows rand n q qil rows c) ∧
    (∀ q c, subquery rand n q c ≠ .error .outOfFuel →
      subquery rand (n + 1) q c = subquery rand n q c) ∧
    (∀ w qil out c, eval_filter rand n w qil out c ≠ .error .outOfFuel →
      eval_filter rand (n + 1) w qil out c = eval_filter rand n w qil out c) ∧
    (∀ wh qil out c, filterRows rand n wh qil out c ≠ .error .outOfFuel →
      filterRows rand (n + 1) wh qil out c = filterRows rand n wh qil out c) ∧
    (∀ ob qil out c, eval_orderby rand n ob qil out c ≠ .error .outOfFuel →
      eval_orderby rand (n + 1) ob qil out c = eval_orderby rand n ob qil out c) ∧
    (∀ ob qil out c, obRevLoop rand n ob qil out c ≠ .error .outOfFuel →
      obRevLoop rand (n + 1) ob qil out c = obRevLoop rand n ob qil out c) ∧
    (∀ sp qil out c, obPass rand n sp qil out c ≠ .error .outOfFuel →
      obPass rand (n + 1) sp qil out c = obPass rand n sp qil out c) ∧
    (∀ p qil nb rows c, decorateRows rand n p qil nb rows c ≠ .error .outOfFuel →
      decorateRows rand (n + 1) p qil nb rows c =
        decorateRows rand n p qil nb rows c) ∧
    (∀ o out c, eval_offset rand n o out c ≠ .error .outOfFuel →
      eval_offset rand (n + 1) o out c = eval_offset rand n o out c) ∧
    (∀ o out c, eval_limit rand n o out c ≠ .error .outOfFuel →
      eval_limit rand (n + 1) o out c = eval_limit rand n o out c) := by
  intro n
  induction n with
  | zero =>
    refine ⟨?_, ?_, ?_, ?_, ?_, ?_, ?_, ?_, ?_, ?_, ?_, ?_, ?_, ?_, ?_, ?_, ?_, ?_⟩ <;>
      intro a b <;>
      first
      | (intro h; exact absurd rfl h)
      | (intro a3 h; exact absurd rfl h)
      | (intro a3 a4 h; exact absurd rfl h)
      | (intro a3 a4 a5 h; exact absurd rfl h)
  | succ n ih =>
    obtain ⟨ihEval, ihAl, ihFor, ihSet, ihTup, ihArgs, ihFO, ihSF, ihSR,
      ihSub, ihFil, ihFR, ihOB, ihRL, ihOP, ihDR, ihOff, ihLim⟩ := ih
    refine ⟨?_, ?_, ?_, ?_, ?_, ?_, ?_, ?_, ?_, ?_, ?_, ?_, ?_, ?_, ?_, ?_, ?_, ?_⟩
    -- eval
    · intro e c hne
      cases e with
      | SelectQuery al res ra w ob off lim =>
        simp only [eval] at hne ⊢
        refine bindMono hne (ihAl al c) ?_
        intro ctx1 h1 hne1
        refine bindMono hne1 (ihSF res _ ctx1) ?_
        intro pr h2 hne2
        obtain ⟨qil1, out1⟩ := pr
        cases ra with
        | some al2 =>
          refine bindMono hne2 (fun _ => rfl) ?_
          intro outA hA hneA
          refine bindMono hneA (fun _ => rfl) ?_
          intro y hy hney
          obtain ⟨qil3, out2⟩ := y
          refine bindMono hney (ihFil w qil3 out2 ctx1) ?_
          intro out3 h4 hne4
          refine bindMono hne4 (ihOB ob qil3 out3 ctx1) ?_
          intro out4 h5 hne5
          refine bindMono hne5 (ihOff off out4 ctx1) ?_
          intro out5 h6 hne6
          refine bindMono hne6 (ihLim lim out5 ctx1) ?_
          intro out6 h7 hne7
          rfl
        | none =>
          refine bindMono hne2 (fun _ => rfl) ?_
          intro y hy hney
          obtain ⟨qil3, out2⟩ := y
          refine bindMono hney (ihFil w qil3 out2 ctx1) ?_
          intro out3 h4 hne4
          refine bindMono hne4 (ihOB ob qil3 out3 ctx1) ?_
          intro out4 h5 hne5
          refine bindMono hne5 (ihOff off out4 ctx1) ?_
          intro out5 h6 hne6
          refine bindMono hne6 (ihLim lim out5 ctx1) ?_
          intro out6 h7 hne7
          rfl
      | ForQuery al2 it res =>
        simp only [eval] at hne ⊢
        refine bindMono hne (ihSub it c) ?_
        intro vals h1 hne1
        exact ihFor vals res _ c hne1
      | BinOp op l r =>
        simp only [eval] at hne ⊢
        exact ihFO (pyUpper op) [l, r] "binop" c hne
      | UnaryOp op x =>
        simp only [eval] at hne ⊢
        exact ihFO (pyUpper op) [x] "unop" c hne
      | FunctionCall f args =>
        simp only [eval] at hne ⊢
        exact ihFO f args "func" c hne
      | IfElse a c2 el =>
        simp only [eval] at hne ⊢
        exact ihFO "IF" [a, c2, el] "binop" c hne
      | StringConstant v => rfl
      | IntegerConstant v b => rfl
      | BooleanConstant b => rfl
      | Set es =>
        simp only [eval] at hne ⊢
        exact ihSet es c hne
      | Tuple es =>
        simp only [eval] at hne ⊢
        refine bindMono hne (ihTup es c) ?_
        intro args h1 hne1
        rfl
      | TypeCast typ e1 =>
        simp only [eval] at hne ⊢
        cases hB : BASIS_IMPLS rand "cast" typ with
        | none => simp [hB]
        | some f =>
          simp only [hB] at hne ⊢
          refine bindMono hne (ihEval e1 c) ?_
          intro v h1 hne1
          rfl
      | Path p =>
        simp only [eval] at hne ⊢
        exact eval_path_mono n (simplify_path p) c hne
    -- evalAliases
    · intro al c hne
      match al with
      | [] => rfl
      | (a, ex) :: rest =>
        simp only [evalAliases] at hne ⊢
        refine bindMono hne (ihSub ex c) ?_
        intro vals h1 hne1
        exact ihAl rest _ hne1
    -- evalForLoop
    · intro vs res qil c hne
      match vs with
      | [] => rfl
      | v :: vrest =>
        simp only [evalForLoop] at hne ⊢
        refine bindMono hne (ihSub res _) ?_
        intro r h1 hne1
        refine bindMono hne1 (ihFor vrest res qil c) ?_
        intro rest h2 hne2
        rfl
    -- evalSetLoop
    · intro es c hne
      match es with
      | [] => rfl
      | e :: rest =>
        simp only [evalSetLoop] at hne ⊢
        refine bindMono hne (ihEval e c) ?_
        intro v h1 hne1
        refine bindMono hne1 (ihSet rest c) ?_
        intro r h2 hne2
        rfl
    -- evalTupleArgs
    · intro es c hne
      match es with
      | [] => rfl
      | e :: rest =>
        simp only [evalTupleArgs] at hne ⊢
        refine bindMono hne (ihEval e c) ?_
        intro v h1 hne1
        refine bindMono hne1 (ihTup rest c) ?_
        intro r h2 hne2
        rfl
    -- evalArgsLoop
    · intro sp i args c hne
      match args with
      | [] => rfl
      | a :: rest =>
        match sp with
        | none =>
          simp only [evalArgsLoop] at hne ⊢
          refine bindMono hne (ihEval a c) ?_
          intro r h1 hne1
          refine bindMono hne1 (ihArgs none (i + 1) rest c) ?_
          intro rs h2 hne2
          rfl
        | some [] =>
          simp only [evalArgsLoop] at hne ⊢
          refine bindMono hne (ihEval a c) ?_
          intro r h1 hne1
          refine bindMono hne1 (ihArgs (some []) (i + 1) rest c) ?_
          intro rs h2 hne2
          rfl
        | some (m :: ms) =>
          simp only [evalArgsLoop] at hne ⊢
          cases hg : (m :: ms).get? i with
          | none =>
            simp only [hg] at hne ⊢
            refine bindMono hne (fun _ => rfl) ?_
            intro r h1 hne1
            refine bindMono hne1 (ihArgs (some (m :: ms)) (i + 1) rest c) ?_
            intro rs h2 hne2
            rfl
          | some md =>
            cases md with
            | SET_OF =>
              simp only [hg] at hne ⊢
              refine bindMono hne (ihSub a c) ?_
              intro r h1 hne1
              refine bindMono hne1 (ihArgs (some (m :: ms)) (i + 1) rest c) ?_
              intro rs h2 hne2
              rfl
            | OPTIONAL =>
              simp only [hg] at hne ⊢
              refine bindMono hne (ihEval a c) ?_
              intro r h1 hne1
              refine bindMono hne1 (ihArgs (some (m :: ms)) (i + 1) rest c) ?_
              intro rs h2 hne2
              rfl
            | SINGLETON =>
              simp only [hg] at hne ⊢
              refine bindMono hne (ihEval a c) ?_
              intro r h1 hne1
              refine bindMono hne1 (ihArgs (some (m :: ms)) (i + 1) rest c) ?_
              intro rs h2 hne2
              rfl
    -- eval_func_or_op
    · intro op args typ c hne
      simp only [eval_func_or_op] at hne ⊢
      refine bindMono hne (ihArgs (basisGet op) 0 args c) ?_
      intro results h1 hne1
      rfl
    -- subquery_full
    · intro q ex c hne
      simp only [subquery_full] at hne ⊢
      refine bindMono hne (analyze_paths_mono n q ex) ?_
      intro tr h1 hne1
      obtain ⟨dp, sp, ao⟩ := tr
      refine bindMono hne1 (build_input_tuples_mono n _ ao c) ?_
      intro tuples h2 hne2
      refine bindMono hne2 (ihSR q _ tuples c) ?_
      intro rows h3 hne3
      rfl
    -- sfRows
    · intro q qil rows c hne
      match rows with
      | [] => rfl
      | row :: rest =>
        simp only [sfRows] at hne ⊢
        refine bindMono hne (ihEval q _) ?_
        intro vals h1 hne1
        refine bindMono hne1 (ihSR q qil rest c) ?_
        intro r2 h2 hne2
        rfl
    -- subquery
    · intro q c hne
      simp only [subquery] at hne ⊢
      refine bindMono hne (ihSF q [] c) ?_
      intro pr h1 hne1
      obtain ⟨qil, rows⟩ := pr
      rfl
    -- eval_filter
    · intro w qil out c hne
      match w with
      | none => rfl
      | some wh =>
        simp only [eval_filter] at hne ⊢
        exact ihFR wh qil out c hne
    -- filterRows
    · intro wh qil out c hne
      match out with
      | [] => rfl
      | row :: rest =>
        simp only [filterRows] at hne ⊢
        refine bindMono hne (ihSub wh _) ?_
        intro vals h1 hne1
        refine bindMono hne1 (ihFR wh qil rest c) ?_
        intro r2 h2 hne2
        rfl
    -- eval_orderby
    · intro ob qil out c hne
      simp only [eval_orderby] at hne ⊢
      exact ihRL ob.reverse qil out c hne
    -- obRevLoop
    · intro ob qil out c hne
      match ob with
      | [] => rfl
      | spec :: rest =>
        simp only [obRevLoop] at hne ⊢
        refine bindMono hne (ihOP spec qil out c) ?_
        intro out2 h1 hne1
        exact ihRL rest qil out2 c hne1
    -- obPass
    · intro sp qil out c hne
      simp only [obPass] at hne ⊢
      refine bindMono hne (ihDR sp.path qil _ out c) ?_
      intro dec h1 hne1
      rfl
    -- decorateRows
    · intro p qil nb rows c hne
      match rows with
      | [] => rfl
      | row :: rest =>
        simp only [decorateRows] at hne ⊢
        refine bindMono hne (ihSub p _) ?_
        intro vals h1 hne1
        match vals with
        | [] =>
          refine bindMono hne1 (ihDR p qil nb rest c) ?_
          intro r2 h2 hne2
          rfl
        | [v] =>
          refine bindMono hne1 (ihDR p qil nb rest c) ?_
          intro r2 h2 hne2
          rfl
        | a :: b :: t => rfl
    -- eval_offset
    · intro o out c hne
      match o with
      | none => rfl
      | some oe =>
        simp only [eval_offset] at hne ⊢
        refine bindMono hne (ihSub oe c) ?_
        intro res h1 hne1
        rfl
    -- eval_limit
    · intro o out c hne
      match o with
      | none => rfl
      | some oe =>
        simp only [eval_limit] at hne ⊢
        refine bindMono hne (ihSub oe c) ?_
        intro res h1 hne1
        rfl

-- ############# C8: sort stability

/-- Going one extra fuel step and iterating: a run that does not run out of
fuel gives the same result at every larger fuel. -/
theorem subquery_mono_le (rand : ℚ) (q : Expr) (c : EvalContext) :
    ∀ {m n : Nat}, m ≤ n → subquery rand m q c ≠ .error .outOfFuel →
      subquery rand n q c = subquery rand m q c := by
  intro m n h
  induction h with
  | refl => intro _; rfl
  | @step k hk ih =>
    intro hm
    have h1 := ih hm
    have h2 : subquery rand k q c ≠ .error .outOfFuel := by rw [h1]; exact hm
    exact ((evalMono rand k).2.2.2.2.2.2.2.2.2.1 q c h2).trans h1

/-- Two successful runs of the same subquery at any two fuels agree. -/
theorem subquery_fuel_stable (rand : ℚ) (q : Expr) (c : EvalContext)
    {m n : Nat} {v w : List Data}
    (hm : subquery rand m q c = .ok v) (hn : subquery rand n q c = .ok w) :
    v = w := by
  rcases Nat.le_total m n with h | h
  · have he := subquery_mono_le rand q c h (by simp [hm])
    rw [hn, hm] at he
    exact (Except.ok.inj he).symm
  · have he := subquery_mono_le rand q c h (by simp [hn])
    rw [hn, hm] at he
    exact Except.ok.inj he

/-- The key order is irreflexive (`dataLt` is). -/
theorem keyLt_irrefl (k : SortKey) : keyLt k k = false := by
  obtain ⟨b, v⟩ := k
  cases v with
  | none => simp [keyLt]
  | some x => simp [keyLt, dataLt_irrefl]

/-- Hence every key is `keyLe`-related to itself. -/
theorem keyLe_refl (k : SortKey) : keyLe k k = true := by
  simp [keyLe, keyLt_irrefl]

/-- The wrapped key `decorateRows` attaches to a row, as a function of the
key evaluation result. -/
def decKey (nb : Bool) : List Data → SortKey
  | [] => (nb, none)
  | v :: _ => (!nb, some v)

/-- Every row of a successfully decorated list carries the key computed by
some successful run of the key subquery on that row. -/
theorem decorateRows_mem_key (rand : ℚ) (p : Expr) (qil : List IPath)
    (nb : Bool) (ctx : EvalContext) :
    ∀ (rows : List Row) (fuel : Nat) (dec : List (Row × SortKey)) (r : Row),
      decorateRows rand fuel p qil nb rows ctx = .ok dec → r ∈ rows →
      ∃ (f : Nat) (vals : List Data),
        subquery rand f p
          {ctx with query_input_list := qil, input_tuple := r} = .ok vals ∧
        (r, decKey nb vals) ∈ dec := by
  intro rows
  induction rows with
  | nil => intro fuel dec r _ hr; exact absurd hr (List.not_mem_nil r)
  | cons row rest ih =>
    intro fuel dec r hdec hr
    match fuel with
    | 0 => exact absurd hdec (by simp [decorateRows])
    | n + 1 =>
      simp only [decorateRows] at hdec
      cases hq : subquery rand n p
          {ctx with query_input_list := qil, input_tuple := row} with
      | error e => rw [hq] at hdec; simp at hdec
      | ok vals =>
        rw [hq] at hdec
        simp only [exc_bind_ok] at hdec
        match vals with
        | [] =>
          cases hrest : decorateRows rand n p qil nb rest ctx with
          | error e => rw [hrest] at hdec; simp at hdec
          | ok rest2 =>
            rw [hrest] at hdec
            simp only [exc_bind_ok, exc_pure_def, exc_ok_inj] at hdec
            rcases List.mem_cons.mp hr with hr1 | hr2
            · subst hr1
              exact ⟨n, [], hq, by rw [← hdec]; exact List.mem_cons_self _ _⟩
            · obtain ⟨f, vals2, hq2, hmem⟩ := ih n rest2 r hrest hr2
              exact ⟨f, vals2, hq2,
                by rw [← hdec]; exact List.mem_cons_of_mem _ hmem⟩
        | [v] =>
          cases hrest : decorateRows rand n p qil nb rest ctx with
          | error e => rw [hrest] at hdec; simp at hdec
          | ok rest2 =>
            rw [hrest] at hdec
            simp only [exc_bind_ok, exc_pure_def, exc_ok_inj] at hdec
            rcases List.mem_cons.mp hr with hr1 | hr2
            · subst hr1
              exact ⟨n, [v], hq, by rw [← hdec]; exact List.mem_cons_self _ _⟩
            · obtain ⟨f, vals2, hq2, hmem⟩ := ih n rest2 r hrest hr2
              exact ⟨f, vals2, hq2,
                by rw [← hdec]; exact List.mem_cons_of_mem _ hmem⟩
        | a :: b :: t => simp at hdec

/-- An in-order pair of rows whose key subquery agrees on the two rows (at
every fuel) decorates to an in-order pair with one common key. -/
theorem decorateRows_pair (rand : ℚ) (p : Expr) (qil : List IPath) (nb : Bool)
    (ctx : EvalContext) (r1 r2 : Row)
    (hkey : ∀ f, subquery rand f p
        {ctx with query_input_list := qil, input_tuple := r1} =
      subquery rand f p
        {ctx with query_input_list := qil, input_tuple := r2}) :
    ∀ (rows : List Row) (fuel : Nat) (dec : List (Row × SortKey)),
      decorateRows rand fuel p qil nb rows ctx = .ok dec →
      List.Sublist [r1, r2] rows →
      ∃ k, List.Sublist [(r1, k), (r2, k)] dec := by
  intro rows
  induction rows with
  | nil =>
    intro fuel dec _ hs
    exact absurd (List.sublist_nil.mp hs) (by simp)
  | cons row rest ih =>
    intro fuel dec hdec hs
    match fuel with
    | 0 => exact absurd hdec (by simp [decorateRows])
    | n + 1 =>
      simp only [decorateRows] at hdec
      cases hq : subquery rand n p
          {ctx with query_input_list := qil, input_tuple := row} with
      | error e => rw [hq] at hdec; simp at hdec
      | ok vals =>
        rw [hq] at hdec
        simp only [exc_bind_ok] at hdec
        match vals with
        | [] =>
          cases hrest : decorateRows rand n p qil nb rest ctx with
          | error e => rw [hrest] at hdec; simp at hdec
          | ok rest2 =>
            rw [hrest] at hdec
            simp only [exc_bind_ok, exc_pure_def, exc_ok_inj] at hdec
            cases hs with
            | cons _ h =>
              obtain ⟨k, hk⟩ := ih n rest2 hrest h
              exact ⟨k, by rw [← hdec]; exact hk.cons _⟩
            | cons₂ _ h =>
              obtain ⟨f, vals2, hq2, hmem⟩ :=
                decorateRows_mem_key rand p qil nb ctx rest n rest2 r2 hrest
                  (List.singleton_sublist.mp h)
              have hv : ([] : List Data) = vals2 :=
                subquery_fuel_stable rand p _ hq ((hkey f).trans hq2)
              refine ⟨(nb, none), ?_⟩
              rw [← hdec]
              refine List.Sublist.cons₂ _ (List.singleton_sublist.mpr ?_)
              have hdk : decKey nb vals2 = (nb, none) := by rw [← hv]; rfl
              rw [← hdk]
              exact hmem
        | [v] =>
          cases hrest : decorateRows rand n p qil nb rest ctx with
          | error e => rw [hrest] at hdec; simp at hdec
          | ok rest2 =>
            rw [hrest] at hdec
            simp only [exc_bind_ok, exc_pure_def, exc_ok_inj] at hdec
            cases hs with
            | cons _ h =>
              obtain ⟨k, hk⟩ := ih n rest2 hrest h
              exact ⟨k, by rw [← hdec]; exact hk.cons _⟩
            | cons₂ _ h =>
              obtain ⟨f, vals2, hq2, hmem⟩ :=
                decorateRows_mem_key rand p qil nb ctx rest n rest2 r2 hrest
                  (List.singleton_sublist.mp h)
              have hv : [v] = vals2 :=
                subquery_fuel_stable rand p _ hq ((hkey f).trans hq2)
              refine ⟨(!nb, some v), ?_⟩
              rw [← hdec]
              refine List.Sublist.cons₂ _ (List.singleton_sublist.mpr ?_)
              have hdk : decKey nb vals2 = (!nb, some v) := by rw [← hv]; rfl
              rw [← hdk]
              exact hmem
        | a :: b :: t => simp at hdec

/-- One ORDER BY pass keeps an in-order pair of key-agreeing rows in order
(stability of the insertion sort on the tied pair). -/
theorem obPass_pair (rand : ℚ) (s : SortSpec) (qil : List IPath)
    (ctx : EvalContext) (r1 r2 : Row)
    (hkey : ∀ f, subquery rand f s.path
        {ctx with query_input_list := qil, input_tuple := r1} =
      subquery rand f s.path
        {ctx with query_input_list := qil, input_tuple := r2}) :
    ∀ (fuel : Nat) (out out2 : List Row),
      obPass rand fuel s qil out ctx = .ok out2 →
      List.Sublist [r1, r2] out → List.Sublist [r1, r2] out2 := by
  intro fuel out out2 hok hs
  match fuel with
  | 0 => exact absurd hok (by simp [obPass])
  | n + 1 =>
    simp only [obPass] at hok
    cases hdec : decorateRows rand n s.path qil
        ((s.direction == "ASC" && s.nones_order == some "last") ||
         (s.direction == "DESC" && s.nones_order == some "first")) out ctx with
    | error e => rw [hdec] at hok; simp at hok
    | ok dec =>
      rw [hdec] at hok
      simp only [exc_bind_ok, exc_pure_def, exc_ok_inj] at hok
      obtain ⟨k, hk⟩ :=
        decorateRows_pair rand s.path qil _ ctx r1 r2 hkey out n dec hdec hs
      rw [← hok]
      by_cases hd : s.direction == "DESC"
      · rw [if_pos hd]
        exact (@List.pair_sublist_insertionSort (Row × SortKey)
          (fun x y => keyLe y.2 x.2 = true) _ (r1, k) (r2, k) dec
          (keyLe_refl k) hk).map (fun x => x.1)
      · rw [if_neg hd]
        exact (@List.pair_sublist_insertionSort (Row × SortKey)
          (fun x y => keyLe x.2 y.2 = true) _ (r1, k) (r2, k) dec
          (keyLe_refl k) hk).map (fun x => x.1)

/-- Iterating ORDER BY passes keeps an all-keys-agreeing in-order pair in
order. -/
theorem obRevLoop_pair (rand : ℚ) (qil : List IPath) (ctx : EvalContext)
    (r1 r2 : Row) :
    ∀ (obs : List SortSpec) (fuel : Nat) (out out2 : List Row),
      obRevLoop rand fuel obs qil out ctx = .ok out2 →
      (∀ s ∈ obs, ∀ f, subquery rand f s.path
          {ctx with query_input_list := qil, input_tuple := r1} =
        subquery rand f s.path
          {ctx with query_input_list := qil, input_tuple := r2}) →
      List.Sublist [r1, r2] out → List.Sublist [r1, r2] out2 := by
  intro obs
  induction obs with
  | nil =>
    intro fuel out out2 hok _ hs
    match fuel with
    | 0 => exact absurd hok (by simp [obRevLoop])
    | n + 1 =>
      simp only [obRevLoop] at hok
      exact (Except.ok.inj hok) ▸ hs
  | cons s rest ih =>
    intro fuel out out2 hok hkeys hs
    match fuel with
    | 0 => exact absurd hok (by simp [obRevLoop])
    | n + 1 =>
      simp only [obRevLoop] at hok
      cases hp : obPass rand n s qil out ctx with
      | error e => rw [hp] at hok; simp at hok
      | ok outM =>
        rw [hp] at hok
        simp only [exc_bind_ok] at hok
        have h1 := obPass_pair rand s qil ctx r1 r2
          (hkeys s (List.mem_cons_self _ _)) n out outM hp hs
        exact ih n outM out2 hok
          (fun s2 hs2 => hkeys s2 (List.mem_cons_of_mem _ hs2)) h1

/-- C8: sort stability — whenever an ORDER BY application succeeds, any two
rows that occur in order in its input and whose sort-key evaluation agrees
on the two rows for every ORDER BY entry (at every fuel) occur in the same
relative order in its output. -/
theorem C8_sort_stability (rand : ℚ) (fuel : Nat) (orderby : List SortSpec)
    (qil : List IPath) (out out2 : List Row) (ctx : EvalContext) (r1 r2 : Row)
    (hok : eval_orderby rand fuel orderby qil out ctx = .ok out2)
    (hpair : List.Sublist [r1, r2] out)
    (hkeys : ∀ s ∈ orderby, ∀ f, subquery rand f s.path
        {ctx with query_input_list := qil, input_tuple := r1} =
      subquery rand f s.path
        {ctx with query_input_list := qil, input_tuple := r2}) :
    List.Sublist [r1, r2] out2 := by
  match fuel with
  | 0 => exact absurd hok (by simp [eval_orderby])
  | n + 1 =>
    simp only [eval_orderby] at hok
    exact obRevLoop_pair rand qil ctx r1 r2 orderby.reverse n out out2 hok
      (fun s hs => hkeys s (List.mem_reverse.mp hs)) hpair

/-- C8 witness: a concrete ORDER BY run on two (equal, hence key-agreeing)
rows, kept in order. -/
theorem C8_sort_stability_witness :
    eval_orderby 0 20 [SortSpec.mk (Expr.IntegerConstant 1 false) "ASC" none]
      [] [[], []] ⟨[], [], [], []⟩ = .ok [[], []] ∧
    List.Sublist [([] : Row), []] [[], []] :=
  ⟨rfl, C8_sort_stability 0 20
    [SortSpec.mk (Expr.IntegerConstant 1 false) "ASC" none]
    [] [[], []] [[], []] ⟨[], [], [], []⟩ [] [] rfl
    (List.Sublist.refl _) (fun _ _ _ => rfl)⟩

-- ############# C2: the query input list

theorem charLt_irrefl (a : Char) : charLt a a = false := by
  simp [charLt]

theorem charLt_trans {a b c : Char} (h1 : charLt a b = true)
    (h2 : charLt b c = true) : charLt a c = true := by
  simp only [charLt, decide_eq_true_eq] at h1 h2 ⊢
  omega

theorem charLt_conn {a b : Char} (h1 : charLt a b = false)
    (h2 : charLt b a = false) : a = b := by
  simp only [charLt, decide_eq_false_iff_not, Nat.not_lt] at h1 h2
  exact Char.ext (UInt32.toNat.inj (Nat.le_antisymm h2 h1))

theorem strLtL_irrefl : ∀ l : List Char, strLtL l l = false := by
  intro l
  induction l with
  | nil => rfl
  | cons a as ih => simp [strLtL, charLt_irrefl, ih]

theorem strLtL_trans : ∀ a b c : List Char, strLtL a b = true →
    strLtL b c = true → strLtL a c = true := by
  intro a
  induction a with
  | nil =>
    intro b c h1 h2
    match b, c with
    | [], _ => exact absurd h1 (by simp [strLtL])
    | _ :: _, [] => exact absurd h2 (by simp [strLtL])
    | _ :: _, _ :: _ => rfl
  | cons x xs ih =>
    intro b c h1 h2
    match b, c with
    | [], _ => exact absurd h1 (by simp [strLtL])
    | _ :: _, [] => exact absurd h2 (by simp [strLtL])
    | y :: ys, z :: zs =>
      simp only [strLtL] at h1 h2 ⊢
      by_cases hxy : charLt x y = true
      · by_cases hyz : charLt y z = true
        · rw [if_pos (charLt_trans hxy hyz)]
        · by_cases hzy : charLt z y = true
          · rw [if_neg hyz, if_pos hzy] at h2
            exact absurd h2 (by simp)
          · have := charLt_conn (Bool.not_eq_true _ ▸ hyz)
              (Bool.not_eq_true _ ▸ hzy)
            rw [← this, if_pos hxy]
      · by_cases hyx : charLt y x = true
        · rw [if_neg hxy, if_pos hyx] at h1
          exact absurd h1 (by simp)
        · have hx : x = y := charLt_conn (Bool.not_eq_true _ ▸ hxy)
            (Bool.not_eq_true _ ▸ hyx)
          subst hx
          rw [if_neg hxy, if_neg hyx] at h1
          by_cases hyz : charLt x z = true
          · rw [if_pos hyz]
          · by_cases hzy : charLt z x = true
            · rw [if_neg hyz, if_pos hzy] at h2
              exact absurd h2 (by simp)
            · rw [if_neg hyz, if_neg hzy] at h2 ⊢
              exact ih ys zs h1 h2

theorem strLtL_conn : ∀ a b : List Char, strLtL a b = false →
    strLtL b a = false → a = b := by
  intro a
  induction a with
  | nil =>
    intro b h1 _
    match b with
    | [] => rfl
    | _ :: _ => exact absurd h1 (by simp [strLtL])
  | cons x xs ih =>
    intro b h1 h2
    match b with
    | [] => exact absurd h2 (by simp [strLtL])
    | y :: ys =>
      simp only [strLtL] at h1 h2
      by_cases hxy : charLt x y = true
      · rw [if_pos hxy] at h1
        exact absurd h1 (by simp)
      · by_cases hyx : charLt y x = true
        · rw [if_pos hyx] at h2
          exact absurd h2 (by simp)
        · have hx : x = y := charLt_conn (Bool.not_eq_true _ ▸ hxy)
            (Bool.not_eq_true _ ▸ hyx)
          subst hx
          rw [if_neg hxy, if_neg hyx] at h1
          rw [if_neg hyx, if_neg hxy] at h2
          rw [ih ys h1 h2]

theorem strLt_irrefl (s : String) : strLt s s = false := strLtL_irrefl s.data

theorem strLt_trans {s t u : String} (h1 : strLt s t = true)
    (h2 : strLt t u = true) : strLt s u = true :=
  strLtL_trans s.data t.data u.data h1 h2

theorem strLt_conn {s t : String} (h1 : strLt s t = false)
    (h2 : strLt t s = false) : s = t :=
  String.ext (strLtL_conn s.data t.data h1 h2)

/-- The element order as a lexicographic order on the encoding triples. -/
def triLt (x y : Nat × String × String) : Bool :=
  decide (x.1 < y.1) ||
    (x.1 == y.1 &&
      (strLt x.2.1 y.2.1 || (x.2.1 == y.2.1 && strLt x.2.2 y.2.2)))

theorem elemLt_eq_triLt (a b : IPathElement) :
    elemLt a b = triLt (elemKey a) (elemKey b) := rfl

theorem triLt_irrefl (x : Nat × String × String) : triLt x x = false := by
  obtain ⟨n, s, t⟩ := x
  simp [triLt, strLt_irrefl]

theorem triLt_trans : ∀ x y z, triLt x y = true → triLt y z = true →
    triLt x z = true := by
  rintro ⟨n1, s1, t1⟩ ⟨n2, s2, t2⟩ ⟨n3, s3, t3⟩ h1 h2
  simp only [triLt, Bool.or_eq_true, Bool.and_eq_true, decide_eq_true_eq,
    beq_iff_eq] at h1 h2 ⊢
  rcases h1 with h1 | ⟨hn12, h1⟩
  · rcases h2 with h2 | ⟨hn23, h2⟩
    · exact Or.inl (Nat.lt_trans h1 h2)
    · exact Or.inl (by omega)
  · rcases h2 with h2 | ⟨hn23, h2⟩
    · exact Or.inl (by omega)
    · refine Or.inr ⟨hn12.trans hn23, ?_⟩
      rcases h1 with h1 | ⟨hs12, h1⟩
      · rcases h2 with h2 | ⟨hs23, h2⟩
        · exact Or.inl (strLt_trans h1 h2)
        · exact Or.inl (hs23 ▸ h1)
      · rcases h2 with h2 | ⟨hs23, h2⟩
        · exact Or.inl (hs12 ▸ h2)
        · exact Or.inr ⟨hs12.trans hs23, strLt_trans h1 h2⟩

theorem triLt_conn : ∀ x y, triLt x y = false → triLt y x = false → x = y := by
  rintro ⟨n1, s1, t1⟩ ⟨n2, s2, t2⟩ h1 h2
  simp only [triLt] at h1 h2
  obtain ⟨h1a, h1b⟩ := Bool.or_eq_false_iff.mp h1
  obtain ⟨h2a, h2b⟩ := Bool.or_eq_false_iff.mp h2
  have hn : n1 = n2 := by
    have ha := decide_eq_false_iff_not.mp h1a
    have hb := decide_eq_false_iff_not.mp h2a
    omega
  subst hn
  simp only [beq_self_eq_true, Bool.true_and] at h1b h2b
  obtain ⟨h1c, h1d⟩ := Bool.or_eq_false_iff.mp h1b
  obtain ⟨h2c, h2d⟩ := Bool.or_eq_false_iff.mp h2b
  have hs : s1 = s2 := strLt_conn h1c h2c
  subst hs
  simp only [beq_self_eq_true, Bool.true_and] at h1d h2d
  have ht : t1 = t2 := strLt_conn h1d h2d
  subst ht
  rfl

/-- The direction encoding inside `elemKey` is injective. -/
theorem dirEnc_inj : ∀ d e : Option String,
    (match d with | none => "" | some s => "." ++ s) =
      (match e with | none => "" | some s => "." ++ s) → d = e := by
  intro d e h
  match d, e with
  | none, none => rfl
  | none, some s =>
    have h2 : ([] : List Char) = '.' :: s.data := by
      have h3 := congrArg String.data h
      simp only [String.data_append] at h3
      exact h3
    exact absurd h2 (by simp)
  | some s, none =>
    have h2 : '.' :: s.data = ([] : List Char) := by
      have h3 := congrArg String.data h
      simp only [String.data_append] at h3
      exact h3
    exact absurd h2 (by simp)
  | some s, some t =>
    have h3 := congrArg String.data h
    simp only [String.data_append] at h3
    have h4 : s.data = t.data := List.append_cancel_left h3
    rw [String.ext h4]

theorem elemKey_inj : ∀ a b : IPathElement, elemKey a = elemKey b → a = b := by
  intro a b h
  match a, b with
  | .IPartial, .IPartial => rfl
  | .IORef n, .IORef m =>
    have h2 : n = m := (Prod.ext_iff.mp (Prod.ext_iff.mp h).2).1
    rw [h2]
  | .ITypeIntersection n, .ITypeIntersection m =>
    have h2 : n = m := (Prod.ext_iff.mp (Prod.ext_iff.mp h).2).1
    rw [h2]
  | .IPtr n d, .IPtr m e =>
    have h2 : n = m := (Prod.ext_iff.mp (Prod.ext_iff.mp h).2).1
    have h3 := (Prod.ext_iff.mp (Prod.ext_iff.mp h).2).2
    rw [h2, dirEnc_inj d e h3]
  | .IPartial, .IORef _ =>
    exact absurd (Prod.ext_iff.mp h).1 (by decide : ¬(0 : Nat) = 1)
  | .IPartial, .ITypeIntersection _ =>
    exact absurd (Prod.ext_iff.mp h).1 (by decide : ¬(0 : Nat) = 2)
  | .IPartial, .IPtr _ _ =>
    exact absurd (Prod.ext_iff.mp h).1 (by decide : ¬(0 : Nat) = 3)
  | .IORef _, .IPartial =>
    exact absurd (Prod.ext_iff.mp h).1 (by decide : ¬(1 : Nat) = 0)
  | .IORef _, .ITypeIntersection _ =>
    exact absurd (Prod.ext_iff.mp h).1 (by decide : ¬(1 : Nat) = 2)
  | .IORef _, .IPtr _ _ =>
    exact absurd (Prod.ext_iff.mp h).1 (by decide : ¬(1 : Nat) = 3)
  | .ITypeIntersection _, .IPartial =>
    exact absurd (Prod.ext_iff.mp h).1 (by decide : ¬(2 : Nat) = 0)
  | .ITypeIntersection _, .IORef _ =>
    exact absurd (Prod.ext_iff.mp h).1 (by decide : ¬(2 : Nat) = 1)
  | .ITypeIntersection _, .IPtr _ _ =>
    exact absurd (Prod.ext_iff.mp h).1 (by decide : ¬(2 : Nat) = 3)
  | .IPtr _ _, .IPartial =>
    exact absurd (Prod.ext_iff.mp h).1 (by decide : ¬(3 : Nat) = 0)
  | .IPtr _ _, .IORef _ =>
    exact absurd (Prod.ext_iff.mp h).1 (by decide : ¬(3 : Nat) = 1)
  | .IPtr _ _, .ITypeIntersection _ =>
    exact absurd (Prod.ext_iff.mp h).1 (by decide : ¬(3 : Nat) = 2)

theorem elemLt_irrefl (a : IPathElement) : elemLt a a = false := by
  rw [elemLt_eq_triLt]
  exact triLt_irrefl _

theorem elemLt_trans {a b c : IPathElement} (h1 : elemLt a b = true)
    (h2 : elemLt b c = true) : elemLt a c = true := by
  rw [elemLt_eq_triLt] at h1 h2 ⊢
  exact triLt_trans _ _ _ h1 h2

theorem elemLt_conn {a b : IPathElement} (h1 : elemLt a b = false)
    (h2 : elemLt b a = false) : a = b := by
  rw [elemLt_eq_triLt] at h1 h2
  exact elemKey_inj a b (triLt_conn _ _ h1 h2)

theorem pathLt_irrefl : ∀ l : IPath, pathLt l l = false := by
  intro l
  induction l with
  | nil => rfl
  | cons a as ih => simp [pathLt, elemLt_irrefl, ih]

theorem pathLt_trans : ∀ a b c : IPath, pathLt a b = true →
    pathLt b c = true → pathLt a c = true := by
  intro a
  induction a with
  | nil =>
    intro b c h1 h2
    match b, c with
    | [], _ => exact absurd h1 (by simp [pathLt])
    | _ :: _, [] => exact absurd h2 (by simp [pathLt])
    | _ :: _, _ :: _ => rfl
  | cons x xs ih =>
    intro b c h1 h2
    match b, c with
    | [], _ => exact absurd h1 (by simp [pathLt])
    | _ :: _, [] => exact absurd h2 (by simp [pathLt])
    | y :: ys, z :: zs =>
      simp only [pathLt] at h1 h2 ⊢
      by_cases hxy : elemLt x y = true
      · by_cases hyz : elemLt y z = true
        · rw [if_pos (elemLt_trans hxy hyz)]
        · by_cases hzy : elemLt z y = true
          · rw [if_neg hyz, if_pos hzy] at h2
            exact absurd h2 (by simp)
          · have := elemLt_conn (Bool.not_eq_true _ ▸ hyz)
              (Bool.not_eq_true _ ▸ hzy)
            rw [← this, if_pos hxy]
      · by_cases hyx : elemLt y x = true
        · rw [if_neg hxy, if_pos hyx] at h1
          exact absurd h1 (by simp)
        · have hx : x = y := elemLt_conn (Bool.not_eq_true _ ▸ hxy)
            (Bool.not_eq_true _ ▸ hyx)
          subst hx
          rw [if_neg hxy, if_neg hyx] at h1
          by_cases hyz : elemLt x z = true
          · rw [if_pos hyz]
          · by_cases hzy : elemLt z x = true
            · rw [if_neg hyz, if_pos hzy] at h2
              exact absurd h2 (by simp)
            · rw [if_neg hyz, if_neg hzy] at h2 ⊢
              exact ih ys zs h1 h2

theorem pathLt_conn : ∀ a b : IPath, pathLt a b = false →
    pathLt b a = false → a = b := by
  intro a
  induction a with
  | nil =>
    intro b h1 _
    match b with
    | [] => rfl
    | _ :: _ => exact absurd h1 (by simp [pathLt])
  | cons x xs ih =>
    intro b h1 h2
    match b with
    | [] => exact absurd h2 (by simp [pathLt])
    | y :: ys =>
      simp only [pathLt] at h1 h2
      by_cases hxy : elemLt x y = true
      · rw [if_pos hxy] at h1
        exact absurd h1 (by simp)
      · by_cases hyx : elemLt y x = true
        · rw [if_pos hyx] at h2
          exact absurd h2 (by simp)
        · have hx : x = y := elemLt_conn (Bool.not_eq_true _ ▸ hxy)
            (Bool.not_eq_true _ ▸ hyx)
          subst hx
          rw [if_neg hxy, if_neg hyx] at h1
          rw [if_neg hyx, if_neg hxy] at h2
          rw [ih ys h1 h2]

theorem pathLe_total : ∀ a b : IPath, pathLe a b = true ∨ pathLe b a = true := by
  intro a b
  by_cases h1 : pathLt b a = true
  · right
    by_cases h2 : pathLt a b = true
    · have h3 := pathLt_trans a b a h2 h1
      rw [pathLt_irrefl] at h3
      exact absurd h3 (by simp)
    · simp [pathLe, Bool.not_eq_true _ ▸ h2]
  · left
    simp [pathLe, Bool.not_eq_true _ ▸ h1]

instance : IsTotal IPath (fun a b => pathLe a b = true) := ⟨pathLe_total⟩

theorem pathLe_trans : ∀ a b c : IPath, pathLe a b = true →
    pathLe b c = true → pathLe a c = true := by
  intro a b c h1 h2
  simp only [pathLe, Bool.not_eq_true'] at h1 h2 ⊢
  by_cases h4 : pathLt b c = true
  · by_cases h3 : pathLt c a = true
    · have h5 := pathLt_trans b c a h4 h3
      rw [h1] at h5
      exact absurd h5 (by simp)
    · exact Bool.not_eq_true _ ▸ h3
  · have hbc : b = c := pathLt_conn b c (Bool.not_eq_true _ ▸ h4) h2
    rw [← hbc]
    exact h1

instance : IsTrans IPath (fun a b => pathLe a b = true) := ⟨pathLe_trans⟩

theorem sinsert_mem (p x : IPath) (s : List IPath) :
    p ∈ sinsert x s ↔ p = x ∨ p ∈ s := by
  by_cases hx : x ∈ s
  · simp only [sinsert, if_pos hx]
    constructor
    · exact Or.inr
    · rintro (rfl | h)
      · exact hx
      · exact h
  · simp only [sinsert, if_neg hx, List.mem_append, List.mem_singleton]
    exact Or.comm

theorem sinsert_nodup (x : IPath) (s : List IPath) (h : s.Nodup) :
    (sinsert x s).Nodup := by
  by_cases hx : x ∈ s
  · simpa [sinsert, if_pos hx] using h
  · simp [sinsert, if_neg hx, List.nodup_append, h, hx]

theorem foldl_sinsert_mem :
    ∀ (l acc : List IPath) (p : IPath),
      p ∈ l.foldl (fun a q => sinsert q a) acc ↔ p ∈ acc ∨ p ∈ l := by
  intro l
  induction l with
  | nil => intro acc p; simp
  | cons x xs ih =>
    intro acc p
    simp only [List.foldl_cons, ih, sinsert_mem, List.mem_cons]
    tauto

theorem foldl_sinsert_nodup :
    ∀ (l acc : List IPath), acc.Nodup →
      (l.foldl (fun a q => sinsert q a) acc).Nodup := by
  intro l
  induction l with
  | nil => intro acc h; simpa using h
  | cons x xs ih =>
    intro acc h
    simp only [List.foldl_cons]
    exact ih _ (sinsert_nodup x acc h)

theorem fcpGo_nodup (S : List IPath) :
    ∀ (xs acc : List IPath), acc.Nodup → (fcpGo S xs acc).Nodup := by
  intro xs
  induction xs with
  | nil => intro acc h; simpa [fcpGo] using h
  | cons x rest ih =>
    intro acc h
    simp only [fcpGo]
    apply ih
    split
    · exact sinsert_nodup _ _ h
    · exact foldl_sinsert_nodup _ _ h

/-- The collection of paths the spec describes: for some decomposition of
the direct refs as `pre ++ d :: suf`, either a nonempty longest common
prefix of `d` with one of `d :: suf ++ S` (i.e. `d` itself, a direct ref at
or after `d`, or a subquery ref), or `d` itself when every such common
prefix is empty. -/
def specPrefixSet (D S : List IPath) (p : IPath) : Prop :=
  ∃ pre d suf, D = pre ++ d :: suf ∧
    ((p ≠ [] ∧ ∃ y ∈ (d :: suf) ++ S, p = lcp d y) ∨
     (p = d ∧ ∀ y ∈ (d :: suf) ++ S, lcp d y = []))

theorem specPrefixSet_nil (S : List IPath) (p : IPath) :
    ¬ specPrefixSet [] S p := by
  rintro ⟨pre, d, suf, hdec, -⟩
  cases pre <;> simp at hdec

theorem specPrefixSet_cons (x : IPath) (rest S : List IPath) (p : IPath) :
    specPrefixSet (x :: rest) S p ↔
      ((p ≠ [] ∧ ∃ y ∈ (x :: rest) ++ S, p = lcp x y) ∨
       (p = x ∧ ∀ y ∈ (x :: rest) ++ S, lcp x y = [])) ∨
      specPrefixSet rest S p := by
  constructor
  · rintro ⟨pre, d, suf, hdec, hcond⟩
    match pre, hdec with
    | [], hdec =>
      injection hdec with h1 h2
      subst h1
      subst h2
      exact Or.inl hcond
    | a :: pre2, hdec =>
      injection hdec with h1 h2
      subst h1
      exact Or.inr ⟨pre2, d, suf, h2, hcond⟩
  · rintro (h | ⟨pre, d, suf, hdec, hcond⟩)
    · exact ⟨[], x, rest, rfl, h⟩
    · exact ⟨x :: pre, d, suf, by rw [hdec]; rfl, hcond⟩

theorem pfxs_mem (x : IPath) (ys : List IPath) (p : IPath) :
    p ∈ (ys.map (fun y => lcp x y)).filter (fun q => q ≠ []) ↔
      p ≠ [] ∧ ∃ y ∈ ys, p = lcp x y := by
  constructor
  · intro h
    obtain ⟨hmem, hne⟩ := List.mem_filter.mp h
    obtain ⟨y, hy, hfy⟩ := List.mem_map.mp hmem
    exact ⟨by simpa using hne, y, hy, hfy.symm⟩
  · rintro ⟨hne, y, hy, hp⟩
    exact List.mem_filter.mpr
      ⟨List.mem_map.mpr ⟨y, hy, hp.symm⟩, by simpa using hne⟩

theorem pfxs_empty (x : IPath) (ys : List IPath) :
    (ys.map (fun y => lcp x y)).filter (fun q => q ≠ []) = [] ↔
      ∀ y ∈ ys, lcp x y = [] := by
  rw [List.filter_eq_nil_iff]
  constructor
  · intro h y hy
    have h2 := h (lcp x y) (List.mem_map.mpr ⟨y, hy, rfl⟩)
    simpa using h2
  · intro h q hq
    obtain ⟨y, hy, hfy⟩ := List.mem_map.mp hq
    simp [← hfy, h y hy]

theorem fcpGo_mem (S : List IPath) :
    ∀ (xs acc : List IPath) (p : IPath),
      p ∈ fcpGo S xs acc ↔ p ∈ acc ∨ specPrefixSet xs S p := by
  intro xs
  induction xs with
  | nil =>
    intro acc p
    simp only [fcpGo]
    exact ⟨Or.inl, fun h => h.resolve_right (specPrefixSet_nil S p)⟩
  | cons x rest ih =>
    intro acc p
    simp only [fcpGo]
    rw [ih, specPrefixSet_cons]
    by_cases hc : (((x :: rest) ++ S).map (fun y => lcp x y)).filter
        (fun q => q ≠ []) = []
    · rw [if_pos hc, sinsert_mem]
      have hall := (pfxs_empty x ((x :: rest) ++ S)).mp hc
      constructor
      · rintro ((rfl | h) | h)
        · exact Or.inr (Or.inl (Or.inr ⟨rfl, hall⟩))
        · exact Or.inl h
        · exact Or.inr (Or.inr h)
      · rintro (h | ((⟨hne, y, hy, hp⟩ | ⟨rfl, -⟩) | h))
        · exact Or.inl (Or.inr h)
        · exact absurd (hp.trans (hall y hy)) hne
        · exact Or.inl (Or.inl rfl)
        · exact Or.inr h
    · rw [if_neg hc, foldl_sinsert_mem, pfxs_mem]
      constructor
      · rintro ((h | ⟨hne, y, hy, hp⟩) | h)
        · exact Or.inl h
        · exact Or.inr (Or.inl (Or.inl ⟨hne, y, hy, hp⟩))
        · exact Or.inr (Or.inr h)
      · rintro (h | ((⟨hne, y, hy, hp⟩ | ⟨-, hall⟩) | h))
        · exact Or.inl (Or.inl h)
        · exact Or.inl (Or.inr ⟨hne, y, hy, hp⟩)
        · exact absurd ((pfxs_empty x ((x :: rest) ++ S)).mpr hall) hc
        · exact Or.inr h

/-- C2: `make_query_input_list` restricts the direct refs to those headed
by an object ref, and returns, sorted and without duplicates, exactly the
paths that are a nonempty longest common prefix of some such direct ref
`d` with `d` itself, a direct ref at or after `d`, or a subquery ref — or
`d` itself when all those common prefixes are empty — minus the paths
already in the outer input list. -/
theorem C2_query_input_list (D S O : List IPath) :
    List.Sorted (fun a b => pathLe a b = true) (make_query_input_list D S O) ∧
    (make_query_input_list D S O).Nodup ∧
    (∀ p, p ∈ make_query_input_list D S O ↔
      p ∉ O ∧ specPrefixSet (D.filter (fun x =>
        match x.head? with | some (.IORef _) => true | _ => false)) S p) := by
  refine ⟨?_, ?_, ?_⟩
  · simp only [make_query_input_list]
    exact List.sorted_insertionSort _ _
  · simp only [make_query_input_list, find_common_prefixes]
    refine ((List.perm_insertionSort _ _).nodup_iff).mpr ?_
    exact (fcpGo_nodup S _ [] List.nodup_nil).filter _
  · intro p
    simp only [make_query_input_list, find_common_prefixes]
    rw [List.mem_insertionSort, List.mem_filter, fcpGo_mem]
    constructor
    · rintro ⟨h1, h2⟩
      exact ⟨by simpa using h2, h1.resolve_left (by simp)⟩
    · rintro ⟨hO, hs⟩
      exact ⟨Or.inr hs, by simpa using hO⟩

-- ############# C9: determinism up to the random source

/-- `BASIS_IMPLS` ignores the random source except at `("func", "random")`. -/
theorem BASIS_IMPLS_indep (r1 r2 : ℚ) (typ op : String)
    (h : ¬(typ = "func" ∧ op = "random")) :
    BASIS_IMPLS r1 typ op = BASIS_IMPLS r2 typ op := by
  simp only [BASIS_IMPLS, if_neg h]

/-- Congruence for `Except` binds. -/
theorem bindCongr {α β : Type} {m1 m2 : Except Err α} {f1 f2 : α → Except Err β}
    (hm : m1 = m2) (hf : ∀ a, f1 a = f2 a) : (m1 >>= f1) = (m2 >>= f2) := by
  subst hm
  cases m1 with
  | error e => rfl
  | ok a => exact hf a

theorem evalRandIndep (r1 r2 : ℚ) : ∀ n : Nat,
    (∀ e c, randFree e = true → eval r1 n e c = eval r2 n e c) ∧
    (∀ al c, randFreeAliases al = true →
      evalAliases r1 n al c = evalAliases r2 n al c) ∧
    (∀ vs res qil c, randFree res = true →
      evalForLoop r1 n vs res qil c = evalForLoop r2 n vs res qil c) ∧
    (∀ es c, randFreeList es = true →
      evalSetLoop r1 n es c = evalSetLoop r2 n es c) ∧
    (∀ es c, randFreeList es = true →
      evalTupleArgs r1 n es c = evalTupleArgs r2 n es c) ∧
    (∀ sp i args c, randFreeList args = true →
      evalArgsLoop r1 n sp i args c = evalArgsLoop r2 n sp i args c) ∧
    (∀ op args typ c, randFreeList args = true →
      ¬(typ = "func" ∧ op = "random") →
      eval_func_or_op r1 n op args typ c = eval_func_or_op r2 n op args typ c) ∧
    (∀ q ex c, randFree q = true →
      subquery_full r1 n q ex c = subquery_full r2 n q ex c) ∧
    (∀ q qil rows c, randFree q = true →
      sfRows r1 n q qil rows c = sfRows r2 n q qil rows c) ∧
    (∀ q c, randFree q = true → subquery r1 n q c = subquery r2 n q c) ∧
    (∀ w qil out c, randFreeOpt w = true →
      eval_filter r1 n w qil out c = eval_filter r2 n w qil out c) ∧
    (∀ wh qil out c, randFree wh = true →
      filterRows r1 n wh qil out c = filterRows r2 n wh qil out c) ∧
    (∀ ob qil out c, randFreeSorts ob = true →
      eval_orderby r1 n ob qil out c = eval_orderby r2 n ob qil out c) ∧
    (∀ ob qil out c, randFreeSorts ob = true →
      obRevLoop r1 n ob qil out c = obRevLoop r2 n ob qil out c) ∧
    (∀ sp qil out c, randFree sp.path = true →
      obPass r1 n sp qil out c = obPass r2 n sp qil out c) ∧
    (∀ p qil nb rows c, randFree p = true →
      decorateRows r1 n p qil nb rows c = decorateRows r2 n p qil nb rows c) ∧
    (∀ o out c, randFreeOpt o = true →
      eval_offset r1 n o out c = eval_offset r2 n o out c) ∧
    (∀ o out c, randFreeOpt o = true →
      eval_limit r1 n o out c = eval_limit r2 n o out c) := by
  intro n
  induction n with
  | zero =>
    refine ⟨?_, ?_, ?_, ?_, ?_, ?_, ?_, ?_, ?_, ?_, ?_, ?_, ?_, ?_, ?_, ?_, ?_, ?_⟩ <;>
      intros <;> rfl
  | succ n ih =>
    obtain ⟨ihEval, ihAl, ihFor, ihSet, ihTup, ihArgs, ihFO, ihSF, ihSR,
      ihSub, ihFil, ihFR, ihOB, ihRL, ihOP, ihDR, ihOff, ihLim⟩ := ih
    refine ⟨?_, ?_, ?_, ?_, ?_, ?_, ?_, ?_, ?_, ?_, ?_, ?_, ?_, ?_, ?_, ?_, ?_, ?_⟩
    -- eval
    · intro e c h
      cases e with
      | SelectQuery al res ra w ob off lim =>
        simp only [randFree, Bool.and_eq_true] at h
        obtain ⟨⟨⟨⟨⟨hA, hR⟩, hW⟩, hOb⟩, hOff⟩, hLim⟩ := h
        simp only [eval]
        refine bindCongr (ihAl al c hA) (fun ctx1 => ?_)
        refine bindCongr (ihSF res _ ctx1 hR) (fun pr => ?_)
        obtain ⟨qil1, out1⟩ := pr
        cases ra with
        | some al2 =>
          refine bindCongr rfl (fun outA => ?_)
          refine bindCongr rfl (fun y => ?_)
          obtain ⟨qil3, out2⟩ := y
          refine bindCongr (ihFil w qil3 out2 ctx1 hW) (fun out3 => ?_)
          refine bindCongr (ihOB ob qil3 out3 ctx1 hOb) (fun out4 => ?_)
          refine bindCongr (ihOff off out4 ctx1 hOff) (fun out5 => ?_)
          refine bindCongr (ihLim lim out5 ctx1 hLim) (fun out6 => ?_)
          rfl
        | none =>
          refine bindCongr rfl (fun y => ?_)
          obtain ⟨qil3, out2⟩ := y
          refine bindCongr (ihFil w qil3 out2 ctx1 hW) (fun out3 => ?_)
          refine bindCongr (ihOB ob qil3 out3 ctx1 hOb) (fun out4 => ?_)
          refine bindCongr (ihOff off out4 ctx1 hOff) (fun out5 => ?_)
          refine bindCongr (ihLim lim out5 ctx1 hLim) (fun out6 => ?_)
          rfl
      | ForQuery al2 it res =>
        simp only [randFree, Bool.and_eq_true] at h
        obtain ⟨hIt, hR⟩ := h
        simp only [eval]
        refine bindCongr (ihSub it c hIt) (fun vals => ?_)
        exact ihFor vals res _ c hR
      | BinOp op l r =>
        simp only [randFree, Bool.and_eq_true] at h
        obtain ⟨hl, hr⟩ := h
        simp only [eval]
        refine ihFO (pyUpper op) [l, r] "binop" c ?_ (fun hc => absurd hc.1 (by decide))
        simp [randFreeList, hl, hr]
      | UnaryOp op x =>
        simp only [randFree] at h
        simp only [eval]
        refine ihFO (pyUpper op) [x] "unop" c ?_ (fun hc => absurd hc.1 (by decide))
        simp [randFreeList, h]
      | FunctionCall f args =>
        simp only [randFree, Bool.and_eq_true, bne_iff_ne] at h
        obtain ⟨hf, hargs⟩ := h
        simp only [eval]
        exact ihFO f args "func" c hargs (fun hc => absurd hc.2 hf)
      | IfElse a c2 el =>
        simp only [randFree, Bool.and_eq_true] at h
        obtain ⟨⟨ha, hc2⟩, hel⟩ := h
        simp only [eval]
        refine ihFO "IF" [a, c2, el] "binop" c ?_ (fun hc => absurd hc.1 (by decide))
        simp [randFreeList, ha, hc2, hel]
      | StringConstant v => rfl
      | IntegerConstant v b => rfl
      | BooleanConstant b => rfl
      | Set es =>
        simp only [randFree] at h
        simp only [eval]
        exact ihSet es c h
      | Tuple es =>
        simp only [randFree] at h
        simp only [eval]
        refine bindCongr (ihTup es c h) (fun args => ?_)
        rfl
      | TypeCast typ e1 =>
        simp only [randFree] at h
        simp only [eval]
        rw [BASIS_IMPLS_indep r1 r2 "cast" typ (fun hc => absurd hc.1 (by decide))]
        cases hB : BASIS_IMPLS r2 "cast" typ with
        | none => rfl
        | some f =>
          refine bindCongr (ihEval e1 c h) (fun v => ?_)
          rfl
      | Path p => rfl
    -- evalAliases
    · intro al c h
      match al with
      | [] => rfl
      | (a, ex) :: rest =>
        simp only [randFreeAliases, Bool.and_eq_true] at h
        obtain ⟨hex, hrest⟩ := h
        simp only [evalAliases]
        refine bindCongr (ihSub ex c hex) (fun vals => ?_)
        exact ihAl rest _ hrest
    -- evalForLoop
    · intro vs res qil c h
      match vs with
      | [] => rfl
      | v :: vrest =>
        simp only [evalForLoop]
        refine bindCongr (ihSub res _ h) (fun r => ?_)
        refine bindCongr (ihFor vrest res qil c h) (fun rest => ?_)
        rfl
    -- evalSetLoop
    · intro es c h
      match es with
      | [] => rfl
      | e :: rest =>
        simp only [randFreeList, Bool.and_eq_true] at h
        obtain ⟨he, hrest⟩ := h
        simp only [evalSetLoop]
        refine bindCongr (ihEval e c he) (fun v => ?_)
        refine bindCongr (ihSet rest c hrest) (fun r => ?_)
        rfl
    -- evalTupleArgs
    · intro es c h
      match es with
      | [] => rfl
      | e :: rest =>
        simp only [randFreeList, Bool.and_eq_true] at h
        obtain ⟨he, hrest⟩ := h
        simp only [evalTupleArgs]
        refine bindCongr (ihEval e c he) (fun v => ?_)
        refine bindCongr (ihTup rest c hrest) (fun r => ?_)
        rfl
    -- evalArgsLoop
    · intro sp i args c h
      match args with
      | [] => rfl
      | a :: rest =>
        simp only [randFreeList, Bool.and_eq_true] at h
        obtain ⟨ha, hrest⟩ := h
        match sp with
        | none =>
          simp only [evalArgsLoop]
          refine bindCongr (ihEval a c ha) (fun r => ?_)
          refine bindCongr (ihArgs none (i + 1) rest c hrest) (fun rs => ?_)
          rfl
        | some [] =>
          simp only [evalArgsLoop]
          refine bindCongr (ihEval a c ha) (fun r => ?_)
          refine bindCongr (ihArgs (some []) (i + 1) rest c hrest) (fun rs => ?_)
          rfl
        | some (m :: ms) =>
          simp only [evalArgsLoop]
          cases hg : (m :: ms).get? i with
          | none =>
            simp only [hg]
            refine bindCongr rfl (fun r => ?_)
            refine bindCongr (ihArgs (some (m :: ms)) (i + 1) rest c hrest)
              (fun rs => ?_)
            rfl
          | some md =>
            cases md with
            | SET_OF =>
              simp only [hg]
              refine bindCongr (ihSub a c ha) (fun r => ?_)
              refine bindCongr (ihArgs (some (m :: ms)) (i + 1) rest c hrest)
                (fun rs => ?_)
              rfl
            | OPTIONAL =>
              simp only [hg]
              refine bindCongr (ihEval a c ha) (fun r => ?_)
              refine bindCongr (ihArgs (some (m :: ms)) (i + 1) rest c hrest)
                (fun rs => ?_)
              rfl
            | SINGLETON =>
              simp only [hg]
              refine bindCongr (ihEval a c ha) (fun r => ?_)
              refine bindCongr (ihArgs (some (m :: ms)) (i + 1) rest c hrest)
                (fun rs => ?_)
              rfl
    -- eval_func_or_op
    · intro op args typ c h hop
      simp only [eval_func_or_op]
      refine bindCongr (ihArgs (basisGet op) 0 args c h) (fun results => ?_)
      rw [BASIS_IMPLS_indep r1 r2 typ op hop]
    -- subquery_full
    · intro q ex c h
      simp only [subquery_full]
      refine bindCongr rfl (fun tr => ?_)
      obtain ⟨dp, sp, ao⟩ := tr
      refine bindCongr rfl (fun tuples => ?_)
      refine bindCongr (ihSR q _ tuples c h) (fun rows => ?_)
      rfl
    -- sfRows
    · intro q qil rows c h
      match rows with
      | [] => rfl
      | row :: rest =>
        simp only [sfRows]
        refine bindCongr (ihEval q _ h) (fun vals => ?_)
        refine bindCongr (ihSR q qil rest c h) (fun r2v => ?_)
        rfl
    -- subquery
    · intro q c h
      simp only [subquery]
      refine bindCongr (ihSF q [] c h) (fun pr => ?_)
      obtain ⟨qil, rows⟩ := pr
      rfl
    -- eval_filter
    · intro w qil out c h
      match w with
      | none => rfl
      | some wh =>
        simp only [randFreeOpt] at h
        simp only [eval_filter]
        exact ihFR wh qil out c h
    -- filterRows
    · intro wh qil out c h
      match out with
      | [] => rfl
      | row :: rest =>
        simp only [filterRows]
        refine bindCongr (ihSub wh _ h) (fun vals => ?_)
        refine bindCongr (ihFR wh qil rest c h) (fun r2v => ?_)
        rfl
    -- eval_orderby
    · intro ob qil out c h
      simp only [eval_orderby]
      refine ihRL ob.reverse qil out c ?_
      have hrev : ∀ l : List SortSpec, randFreeSorts l = true →
          ∀ l2 : List SortSpec, randFreeSorts l2 = true →
          randFreeSorts (l.reverseAux l2) = true := by
        intro l
        induction l with
        | nil => intro _ l2 h2; exact h2
        | cons x xs ihx =>
          intro hx l2 h2
          match x, hx with
          | .mk p d no, hx =>
            simp only [randFreeSorts, Bool.and_eq_true] at hx
            exact ihx hx.2 (.mk p d no :: l2)
              (by simp [randFreeSorts, hx.1, h2])
      exact hrev ob h [] rfl
    -- obRevLoop
    · intro ob qil out c h
      match ob with
      | [] => rfl
      | spec :: rest =>
        match spec with
        | .mk p d no =>
          simp only [randFreeSorts, Bool.and_eq_true] at h
          obtain ⟨hp, hrest⟩ := h
          simp only [obRevLoop]
          refine bindCongr (ihOP (.mk p d no) qil out c hp) (fun out2 => ?_)
          exact ihRL rest qil out2 c hrest
    -- obPass
    · intro sp qil out c h
      simp only [obPass]
      refine bindCongr (ihDR sp.path qil _ out c h) (fun dec => ?_)
      rfl
    -- decorateRows
    · intro p qil nb rows c h
      match rows with
      | [] => rfl
      | row :: rest =>
        simp only [decorateRows]
        refine bindCongr (ihSub p _ h) (fun vals => ?_)
        match vals with
        | [] =>
          refine bindCongr (ihDR p qil nb rest c h) (fun r2v => ?_)
          rfl
        | [v] =>
          refine bindCongr (ihDR p qil nb rest c h) (fun r2v => ?_)
          rfl
        | a :: b :: t => rfl
    -- eval_offset
    · intro o out c h
      match o with
      | none => rfl
      | some oe =>
        simp only [randFreeOpt] at h
        simp only [eval_offset]
        refine bindCongr (ihSub oe c h) (fun res => ?_)
        rfl
    -- eval_limit
    · intro o out c h
      match o with
      | none => rfl
      | some oe =>
        simp only [randFreeOpt] at h
        simp only [eval_limit]
        refine bindCongr (ihSub oe c h) (fun res => ?_)
        rfl

/-- C9 (amended): evaluation is a pure function of the AST, the database
and the ambient random source; for every query that does not call
`random()`, the result is moreover independent of the random source, so any
two runs agree.  (A query calling `random()` genuinely differs between
sources: see `C9_counterexample`.) -/
theorem C9_determinism (r1 r2 : ℚ) (fuel : Nat) (q : Expr) (db : DB)
    (h : randFree q = true) : go r1 fuel q db = go r2 fuel q db := by
  simp only [go]
  exact bindCongr
    ((evalRandIndep r1 r2 fuel).2.2.2.2.2.2.2.2.2.1 q ⟨[], [], [], db⟩ h)
    (fun out => rfl)

/-- C9 counterexample: `SELECT random()` evaluates differently under two
different random sources, so `go` is not a function of the query and the
database alone. -/
theorem C9_counterexample :
    go 0 20 qRandom DB1 = .ok [.DFloat 0] ∧
    go 1 20 qRandom DB1 = .ok [.DFloat 1] ∧
    go 0 20 qRandom DB1 ≠ go 1 20 qRandom DB1 := by
  have h1 : go 0 20 qRandom DB1 = .ok [.DFloat 0] := rfl
  have h2 : go 1 20 qRandom DB1 = .ok [.DFloat 1] := rfl
  refine ⟨h1, h2, ?_⟩
  rw [h1, h2]
  decide

/-- C9 witness: the random-free query `SELECT count(Person.notes)` runs
identically under two different random sources. -/
theorem C9_determinism_witness :
    randFree qCountNotes = true ∧
    go 0 100 qCountNotes DB1 = go 1 100 qCountNotes DB1 :=
  ⟨rfl, C9_determinism 0 1 100 qCountNotes DB1 rfl⟩

end ToyEval
